import Mathlib

/-!
# Verification of the multistate transition core

Shallow embedding of the `multistate` Python package
(`src/multistate/core/state.py`, `core/state_group.py`,
`transitions/transition.py`, `transitions/executor.py`,
`transitions/callbacks.py`, `pathfinding/multi_target.py`).

Modelling conventions:
* Python `State` objects are hashed and compared by `id` only, so a Python
  set of states is modelled as a `Finset σ` of state ids (`σ` is the id
  type).  The per-state attributes `group` and `blocking` that the executor
  reads are supplied by an attribute map `σ → StateAttrs γ` (`γ` is the
  group-id type); in the running Python program each id denotes exactly one
  `State` object carrying those attributes.
* Python `float` costs and thresholds are modelled as exact rationals `ℚ`.
* Iteration over a Python `set` has an unspecified order.  Where the source
  result depends on that order (the blocking scan in `can_execute`) the
  active set is modelled as a `List σ` giving the iteration order
  explicitly.  Where only the resulting set matters the model uses `Finset`.
* Nullary action callables are modelled by the outcome a single call
  produces: a returned boolean or a raised exception.
-/

namespace Multistate

/-- `transitions/visibility.py`: the `StaysVisible` enum
(`NONE`/`TRUE`/`FALSE`, i.e. INHERIT / SHOW_SOURCE / HIDE_SOURCE). -/
inductive StaysVisible where
  | NONE
  | TRUE
  | FALSE
deriving DecidableEq, Repr

/-- `executor.py`: the `SuccessPolicy` enum. -/
inductive SuccessPolicy where
  | STRICT
  | LENIENT
  | THRESHOLD
deriving DecidableEq, Repr

/-- The attributes of a `State` (`core/state.py`) that the executor reads:
`group` (optional group id) and `blocking`.  The remaining fields
(`elements`, `blocks`, weights, costs, metadata) are never read by the
code under verification; `blocks` in particular is not consulted by
`can_execute`. -/
structure StateAttrs (γ : Type) where
  group : Option γ
  blocking : Bool
deriving DecidableEq

/-- Outcome of one call of a nullary outgoing action: it returns a boolean
or raises an exception with a message. -/
inductive ActionOutcome where
  | ok (b : Bool)
  | exn (msg : String)
deriving DecidableEq

/-- Outcome of one call of a nullary incoming action; the executor ignores
its return value and only distinguishes normal return from a raised
exception (`executor.py` lines 219-223). -/
inductive IncomingOutcome where
  | ok
  | exn
deriving DecidableEq

/-- `core/state_group.py`: a `StateGroup` is an id plus a set of member
states (modelled by their ids). -/
structure StateGroup (σ γ : Type) where
  id : γ
  states : Finset σ
deriving DecidableEq

variable {σ γ : Type} [DecidableEq σ] [DecidableEq γ]

/-- `StateGroup.is_fully_active`: `g ⊆ S_Ξ`. -/
def StateGroup.is_fully_active (g : StateGroup σ γ) (active_states : Finset σ) : Bool :=
  decide (g.states ⊆ active_states)

/-- `StateGroup.is_fully_inactive`: `g ∩ S_Ξ = ∅`. -/
def StateGroup.is_fully_inactive (g : StateGroup σ γ) (active_states : Finset σ) : Bool :=
  decide (g.states ∩ active_states = ∅)

/-- `StateGroup.validate_atomicity`: `g ⊆ S_Ξ ∨ g ∩ S_Ξ = ∅`. -/
def StateGroup.validate_atomicity (g : StateGroup σ γ) (active_states : Finset σ) : Bool :=
  g.is_fully_active active_states || g.is_fully_inactive active_states

/-- `transitions/transition.py`: the `Transition` dataclass.  Sets of
states are sets of ids; the optional `action` and the `incoming_actions`
dict hold the outcomes of the stored callables.  `path_cost` is the
pathfinding cost.

The `stays_visible` field is read by `executor.py`
(`transition.stays_visible`) and asserted by the repository's tests
(`test_visibility_standalone.py`, default `StaysVisible.NONE`), but the
`Transition` dataclass in `transition.py` does not declare it.
Modelled from the spec: `stays_visible` is the transition's visibility
directive ∈ {SHOW_SOURCE = TRUE, HIDE_SOURCE = FALSE, INHERIT = NONE},
defaulting to NONE. -/
structure Transition (σ γ : Type) where
  id : String
  from_states : Finset σ := ∅
  activate_states : Finset σ := ∅
  exit_states : Finset σ := ∅
  activate_groups : List (StateGroup σ γ) := []
  exit_groups : List (StateGroup σ γ) := []
  action : Option ActionOutcome := none
  incoming_actions : List (σ × IncomingOutcome) := []
  path_cost : ℚ := 1
  stays_visible : StaysVisible := .NONE
deriving DecidableEq

/-- `Transition.get_all_states_to_activate`:
`activate_states ∪ ⋃ (activate_groups' members)`. -/
def Transition.get_all_states_to_activate (t : Transition σ γ) : Finset σ :=
  t.activate_groups.foldl (fun acc g => acc ∪ g.states) t.activate_states

/-- `Transition.get_all_states_to_exit`:
`exit_states ∪ ⋃ (exit_groups' members)`. -/
def Transition.get_all_states_to_exit (t : Transition σ γ) : Finset σ :=
  t.exit_groups.foldl (fun acc g => acc ∪ g.states) t.exit_states

/-- `Transition.can_execute_from`: true if `from_states` is empty
(wildcard) or intersects the active set. -/
def Transition.can_execute_from (t : Transition σ γ) (active_states : Finset σ) : Bool :=
  if t.from_states = ∅ then true
  else decide ((t.from_states ∩ active_states).Nonempty)

/-- `Transition.validate_groups` (`transition.py` lines 170-196): the
source computes the post-transition active set, then its group scan is a
no-op over it and the function returns `True` unconditionally
("For now, return True (actual validation would check each group)"). -/
def Transition.validate_groups (t : Transition σ γ) (active_states : Finset σ) : Bool :=
  let _new_active : Finset σ :=
    (active_states \ t.get_all_states_to_exit) ∪ t.get_all_states_to_activate
  true

/-- `Transition.get_incoming_action_for_state`:
`incoming_actions.get(state.id)`. -/
def Transition.get_incoming_action_for_state (t : Transition σ γ) (s : σ) :
    Option IncomingOutcome :=
  (t.incoming_actions.find? (fun p => p.1 = s)).map Prod.snd

/-- `transitions/callbacks.py`: `TransitionCallbacks.execute_outgoing` and
`execute_incoming` look up the registered callback, call it inside a local
`try`/`except` and reduce the outcome to a boolean (`True` when no callback
is registered, `False` when the callback returned `False` or raised).
The model records, for each key, the boolean those methods return. -/
structure TransitionCallbacks (σ : Type) where
  execute_outgoing : String → Bool
  execute_incoming : String → σ → Bool

/-- `executor.py`: the phases of `TransitionPhase`. -/
inductive TransitionPhase where
  | VALIDATE
  | OUTGOING
  | ACTIVATE
  | INCOMING
  | EXIT
  | VISIBILITY
  | CLEANUP
deriving DecidableEq, Repr

/-- The `data` dict of a `PhaseResult`, with one constructor per shape the
executor actually stores (`.none` for an empty dict). -/
inductive PhaseData (σ : Type) where
  | none
  | activated (states : Finset σ)
  | incoming (successful failed : Finset σ)
  | deactivated (states : Finset σ)
  | visibility (stays_visible : StaysVisible) (states_to_hide states_to_show : Finset σ)
deriving DecidableEq

/-- `transition.py`: `PhaseResult`. -/
structure PhaseResult (σ : Type) where
  phase : TransitionPhase
  success : Bool
  message : String
  data : PhaseData σ
deriving DecidableEq

/-- `transition.py`: `TransitionResult` (the `metadata` dict, which the
claims do not mention, is elided). -/
structure TransitionResult (σ : Type) where
  success : Bool
  phase_results : List (PhaseResult σ)
  activated_states : Finset σ
  deactivated_states : Finset σ
  error : Option String
deriving DecidableEq

/-- `TransitionResult.get_failed_phase`: first failed phase, if any. -/
def TransitionResult.get_failed_phase (r : TransitionResult σ) : Option TransitionPhase :=
  (r.phase_results.find? (fun pr => pr.success = false)).map PhaseResult.phase

/-- `executor.py`: the executor's configuration.  The optional
`reliability_tracker` collaborator is modelled as absent (`None`): the
claims under verification do not involve it and every tracker branch in
`execute` is guarded by `if self.reliability_tracker`. -/
structure TransitionExecutor where
  success_policy : SuccessPolicy := .STRICT
  success_threshold : ℚ := 8/10
  strict_mode : Bool := true

/-- `TransitionExecutor._evaluate_incoming_success` (lines 351-382),
translated clause by clause: early `True` on an empty activated set, the
guarded success-rate division, then the per-policy decision. -/
def TransitionExecutor.evaluate_incoming_success (ex : TransitionExecutor)
    (activated_states failed_states : Finset σ) : Bool :=
  if activated_states = ∅ then true
  else
    let successful_count : ℤ := (activated_states.card : ℤ) - (failed_states.card : ℤ)
    let total_count : ℕ := activated_states.card
    let success_rate : ℚ :=
      if 0 < total_count then (successful_count : ℚ) / (total_count : ℚ) else 1
    match ex.success_policy with
    | .STRICT => decide (failed_states.card = 0)
    | .LENIENT => true
    | .THRESHOLD => decide (ex.success_threshold ≤ success_rate)

/-- The blocking-state scan of `TransitionExecutor.can_execute`
(lines 401-411): iterate over the active states in order; at the first
blocking state, return `True` if that state has a group and some state in
the resolved activate-set has the same group, else return `False`. -/
def blockingScan (attrs : σ → StateAttrs γ) (states_to_activate : Finset σ) :
    List σ → Bool
  | [] => true
  | s :: rest =>
    if (attrs s).blocking then
      match (attrs s).group with
      | some g => decide (∃ n ∈ states_to_activate, (attrs n).group = some g)
      | Option.none => false
    else blockingScan attrs states_to_activate rest

/-- `TransitionExecutor.can_execute` (lines 384-413): the `from_states`
requirement followed by the blocking scan.  The active set is passed as a
list because the Python `for state in active_states` iterates the set in
an unspecified order and the result depends on which blocking state is
seen first. -/
def can_execute (attrs : σ → StateAttrs γ) (transition : Transition σ γ)
    (active_states : List σ) : Bool :=
  if ¬transition.from_states = ∅ ∧ ¬∃ s ∈ transition.from_states, s ∈ active_states then
    false
  else blockingScan attrs transition.get_all_states_to_activate active_states

/-- One iteration of the INCOMING loop of `execute` (lines 209-227):
whether the state `s` lands in `failed_incoming`.  With callbacks, the
callback result decides; otherwise the inline incoming action fails
exactly when it raises (its return value is ignored). -/
def incoming_failed (transition : Transition σ γ)
    (callbacks : Option (TransitionCallbacks σ)) (s : σ) : Bool :=
  match callbacks with
  | some cb => cb.execute_incoming transition.id s = false
  | Option.none =>
    match transition.get_incoming_action_for_state s with
    | some .exn => true
    | some .ok => false
    | Option.none => false

/-- PHASE 2 (OUTGOING) of `execute` (lines 145-161): the boolean
`outgoing_success` together with the phase entries appended by the local
exception handler (nonempty exactly when the inline action raised). -/
def outgoing_outcome (transition : Transition σ γ)
    (callbacks : Option (TransitionCallbacks σ)) : Bool × List (PhaseResult σ) :=
  match callbacks with
  | some cb => (cb.execute_outgoing transition.id, [])
  | Option.none =>
    match transition.action with
    | some (.ok b) => (b, [])
    | some (.exn m) =>
      (false, [⟨.OUTGOING, false, "Outgoing action failed: " ++ m, .none⟩])
    | Option.none => (true, [])

/-- The `failed_incoming` set accumulated by the INCOMING loop of
`execute` (lines 206-227): the activated states whose incoming action
failed. -/
def incoming_failures (transition : Transition σ γ)
    (callbacks : Option (TransitionCallbacks σ)) : Finset σ :=
  transition.get_all_states_to_activate.filter
    (fun s => incoming_failed transition callbacks s = true)

/-- The ACTIVATE phase message (`f"Activated {n} states"`). -/
def activate_message (n : ℕ) : String := s!"Activated {n} states"

/-- The INCOMING phase message
(`f"{successful_count}/{total_count} incoming transitions succeeded"`). -/
def incoming_message (nOk nTotal : ℕ) : String :=
  s!"{nOk}/{nTotal} incoming transitions succeeded"

/-- The EXIT phase message (`f"Deactivated {n} states"`). -/
def exit_message (n : ℕ) : String := s!"Deactivated {n} states"

/-- `TransitionExecutor._update_visibility` (lines 437-474): show/hide
sets are computed over `from_states - states_to_exit`, where `from_states`
is the *argument* the caller passes (in `execute` this is the caller's
whole active set, not `transition.from_states`). -/
def update_visibility (transition : Transition σ γ)
    (from_states _activated_states : Finset σ) : PhaseData σ :=
  let states_to_exit := transition.get_all_states_to_exit
  let source_states := from_states \ states_to_exit
  match transition.stays_visible with
  | .TRUE => .visibility transition.stays_visible ∅ source_states
  | .FALSE => .visibility transition.stays_visible source_states ∅
  | .NONE => .visibility transition.stays_visible ∅ ∅

/-- `TransitionExecutor.execute` (lines 62-349) with the caller's
active-state set threaded through explicitly: the pair's second component
is the caller's set after the call (the source never mutates it, so every
branch returns it unchanged).

Unreachable parts of the source, given `reliability_tracker = None`:
the tracker-recording branches, and the outer `except Exception` handler —
the only raising operations inside the `try` are user callables, and each
is wrapped in its own local handler (`transition.action` at lines 150-161,
incoming actions at lines 220-223, and `TransitionCallbacks.execute_*`
catch internally in `callbacks.py`), so no exception reaches the outer
handler and `result.error` stays `None`. -/
def TransitionExecutor.executeS (ex : TransitionExecutor) (attrs : σ → StateAttrs γ)
    (transition : Transition σ γ) (active_states : List σ)
    (callbacks : Option (TransitionCallbacks σ)) : TransitionResult σ × List σ :=
  let states_to_activate := transition.get_all_states_to_activate
  let states_to_exit := transition.get_all_states_to_exit
  -- PHASE 1: VALIDATE
  if ¬can_execute attrs transition active_states = true then
    (⟨false, [⟨.VALIDATE, false, "Transition cannot execute from current state", .none⟩],
      ∅, ∅, none⟩, active_states)
  else if ¬transition.validate_groups active_states.toFinset = true then
    (⟨false, [⟨.VALIDATE, false, "Group atomicity violation detected", .none⟩],
      ∅, ∅, none⟩, active_states)
  else
    let validateR : PhaseResult σ := ⟨.VALIDATE, true, "All preconditions satisfied", .none⟩
    -- PHASE 2: OUTGOING
    let outgoingPair := outgoing_outcome transition callbacks
    if ¬outgoingPair.1 = true then
      -- append the generic failure entry unless the exception handler
      -- already appended an OUTGOING entry
      let entries :=
        if outgoingPair.2 = [] then
          [(⟨.OUTGOING, false, "Outgoing transition failed", .none⟩ : PhaseResult σ)]
        else outgoingPair.2
      (⟨false, validateR :: entries, ∅, ∅, none⟩, active_states)
    else
      let outgoingR : PhaseResult σ := ⟨.OUTGOING, true, "Outgoing transition completed", .none⟩
      -- PHASE 3: ACTIVATE (pure set update, cannot fail)
      let successfully_activated := states_to_activate
      let nAct := successfully_activated.card
      let activateR : PhaseResult σ :=
        ⟨.ACTIVATE, true, activate_message nAct, .activated successfully_activated⟩
      -- PHASE 4: INCOMING
      let failed_incoming : Finset σ := incoming_failures transition callbacks
      let incoming_phase_success :=
        ex.evaluate_incoming_success successfully_activated failed_incoming
      let nOk := successfully_activated.card - failed_incoming.card
      let incomingR : PhaseResult σ :=
        ⟨.INCOMING, incoming_phase_success, incoming_message nOk nAct,
          .incoming (successfully_activated \ failed_incoming) failed_incoming⟩
      if ¬incoming_phase_success = true then
        (⟨false, [validateR, outgoingR, activateR, incomingR], ∅, ∅, none⟩, active_states)
      else
        -- PHASE 5: EXIT (pure set update, cannot fail)
        let nExit := states_to_exit.card
        let exitR : PhaseResult σ :=
          ⟨.EXIT, true, exit_message nExit, .deactivated states_to_exit⟩
        -- PHASE 6: VISIBILITY (note: called with the caller's active set)
        let visibilityR : PhaseResult σ :=
          ⟨.VISIBILITY, true, "Visibility updated",
            update_visibility transition active_states.toFinset successfully_activated⟩
        -- PHASE 7: CLEANUP
        let cleanupR : PhaseResult σ := ⟨.CLEANUP, true, "Cleanup completed", .none⟩
        (⟨true, [validateR, outgoingR, activateR, incomingR, exitR, visibilityR, cleanupR],
          successfully_activated, states_to_exit, none⟩, active_states)

/-- `TransitionExecutor.execute`: the result component of `executeS`. -/
def TransitionExecutor.execute (ex : TransitionExecutor) (attrs : σ → StateAttrs γ)
    (transition : Transition σ γ) (active_states : List σ)
    (callbacks : Option (TransitionCallbacks σ)) : TransitionResult σ :=
  (ex.executeS attrs transition active_states callbacks).1

/-- `TransitionExecutor.get_result_states`: committed delta — remove the
resolved exit-set, add the resolved activate-set. -/
def get_result_states (transition : Transition σ γ) (current_states : Finset σ) : Finset σ :=
  (current_states \ transition.get_all_states_to_exit) ∪ transition.get_all_states_to_activate

/-! ## Pathfinding (`pathfinding/multi_target.py`) -/

/-- `SearchStrategy` enum. -/
inductive SearchStrategy where
  | BFS
  | DIJKSTRA
  | A_STAR
deriving DecidableEq, Repr

/-- `PathNode`: a search-tree node.  The Python dataclass's optional
`parent`/`transition_taken` pair (`None` exactly at the start node) is the
`root`/`child` constructor split; `cost` and `depth` are `0` at the root,
as in `_bfs_search`/`_dijkstra_search`. -/
inductive PathNode (σ γ : Type) where
  | root (active_states targets_reached : Finset σ)
  | child (active_states targets_reached : Finset σ) (transition_taken : Transition σ γ)
      (parent : PathNode σ γ) (cost : ℚ) (depth : ℕ)

/-- `PathNode.active_states`. -/
def PathNode.active_states : PathNode σ γ → Finset σ
  | .root a _ => a
  | .child a _ _ _ _ _ => a

/-- `PathNode.targets_reached`. -/
def PathNode.targets_reached : PathNode σ γ → Finset σ
  | .root _ r => r
  | .child _ r _ _ _ _ => r

/-- `PathNode.cost` (`0.0` at the start node). -/
def PathNode.cost : PathNode σ γ → ℚ
  | .root _ _ => 0
  | .child _ _ _ _ c _ => c

/-- `PathNode.depth` (`0` at the start node). -/
def PathNode.depth : PathNode σ γ → ℕ
  | .root _ _ => 0
  | .child _ _ _ _ _ d => d

/-- The equality/hash key of a `PathNode`
(`__eq__`/`__hash__`: `(active_states, targets_reached)`, not the path
taken).  The search's `visited` sets and `best_costs`/`g_scores` dicts are
keyed by this pair. -/
def PathNode.key (n : PathNode σ γ) : Finset σ × Finset σ :=
  (n.active_states, n.targets_reached)

/-- `Path`: the search result. -/
structure Path (σ γ : Type) where
  states_sequence : List (Finset σ)
  transitions_sequence : List (Transition σ γ)
  targets : Finset σ
  total_cost : ℚ
deriving DecidableEq

/-- `Path.is_complete`: the union of the visited state-sets covers the
targets. -/
def Path.is_complete (p : Path σ γ) : Bool :=
  decide (p.targets ⊆ p.states_sequence.foldl (fun acc s => acc ∪ s) ∅)

/-- `MultiTargetPathFinder._apply_transition`: pure set algebra — remove
the resolved exit-set, add the resolved activate-set. -/
def apply_transition (current_states : Finset σ) (t : Transition σ γ) : Finset σ :=
  (current_states \ t.get_all_states_to_exit) ∪ t.get_all_states_to_activate

/-- `MultiTargetPathFinder._get_available_transitions`: all transitions
that can fire from the current configuration.  The source assembles the
list from the `transitions_from_state` index (per-active-state buckets,
then the `"*"` wildcard bucket) deduplicating by `Transition.__eq__`
(id equality); under the data model's unique-id invariant the resulting
candidate *set* is exactly the transitions with
`from_states ∩ active ≠ ∅` plus the wildcard ones, i.e. this filter.
The source's list order depends on the unspecified Python set iteration
order; the model fixes the order of the `transitions` list. -/
def get_available_transitions (transitions : List (Transition σ γ))
    (active_states : Finset σ) : List (Transition σ γ) :=
  transitions.filter (fun t => t.can_execute_from active_states)

/-- Construction of the successor `PathNode` shared by the three search
loops (`new_states`, `new_targets_reached`, cost and depth bookkeeping). -/
def mkChild (target_states : Finset σ) (node : PathNode σ γ) (t : Transition σ γ) :
    PathNode σ γ :=
  let new_states := apply_transition node.active_states t
  .child new_states (node.targets_reached ∪ target_states ∩ new_states) t node
    (node.cost + t.path_cost) (node.depth + 1)

/-- All states that can ever be active starting from `current_states`:
the start configuration together with every transition's resolved
activate-set (`apply_transition` only removes states or adds activate-set
members). -/
def stateUniverse (transitions : List (Transition σ γ)) (current_states : Finset σ) :
    Finset σ :=
  transitions.foldl (fun acc t => acc ∪ t.get_all_states_to_activate) current_states

/-- The finite joint search space: pairs of a subset of the reachable
state universe and a subset of the target set. -/
def keyUniverse (transitions : List (Transition σ γ))
    (current_states target_states : Finset σ) : Finset (Finset σ × Finset σ) :=
  (stateUniverse transitions current_states).powerset ×ˢ target_states.powerset

/-- Iteration budget for the search loops.  The Python loops terminate
because each BFS enqueue adds a fresh key to `visited` and each
non-skipped Dijkstra/A* pop adds a fresh key to `visited` while pushing at
most one heap entry per transition; this budget dominates the total number
of iterations of each loop, and the fuel-sufficiency lemmas below show the
fuel-exhaustion branch is never taken. -/
def searchFuel (transitions : List (Transition σ γ))
    (current_states target_states : Finset σ) : ℕ :=
  (keyUniverse transitions current_states target_states).card * (transitions.length + 1) + 2

/-- One BFS enqueue step (the body of the successor loop in
`_bfs_search`): skip the child if its key is already visited, otherwise
append it to the FIFO queue and mark its key visited. -/
def bfsEnqueue (target_states : Finset σ) (node : PathNode σ γ)
    (qv : List (PathNode σ γ) × Finset (Finset σ × Finset σ)) (t : Transition σ γ) :
    List (PathNode σ γ) × Finset (Finset σ × Finset σ) :=
  let new_node := mkChild target_states node t
  if new_node.key ∈ qv.2 then qv
  else (qv.1 ++ [new_node], insert new_node.key qv.2)

/-- `_bfs_search`'s main loop: FIFO queue, `visited` keyed by
`(active_states, targets_reached)` and extended at enqueue time, goal test
at dequeue. -/
def bfsLoop (transitions : List (Transition σ γ)) (target_states : Finset σ) :
    ℕ → List (PathNode σ γ) → Finset (Finset σ × Finset σ) → Option (PathNode σ γ)
  | 0, _, _ => none
  | _ + 1, [], _ => none
  | fuel + 1, node :: rest, visited =>
    if node.targets_reached = target_states then some node
    else
      let step := (get_available_transitions transitions node.active_states).foldl
        (bfsEnqueue target_states node) (rest, visited)
      bfsLoop transitions target_states fuel step.1 step.2

/-- `PathNode` walk of `_reconstruct_path`: the root-to-node list of
nodes obtained by following parent links and reversing. -/
def PathNode.nodeList : PathNode σ γ → List (PathNode σ γ)
  | .root a r => [.root a r]
  | .child a r t p c d => p.nodeList ++ [.child a r t p c d]

/-- The transitions taken along a node's parent chain, in forward order
(the `transitions_sequence` that `_reconstruct_path` collects). -/
def PathNode.chain : PathNode σ γ → List (Transition σ γ)
  | .root _ _ => []
  | .child _ _ t p _ _ => p.chain ++ [t]

/-- `MultiTargetPathFinder._reconstruct_path`. -/
def reconstruct_path (end_node : PathNode σ γ) (target_states : Finset σ) : Path σ γ :=
  { states_sequence := end_node.nodeList.map PathNode.active_states
    transitions_sequence := end_node.chain
    targets := target_states
    total_cost := end_node.cost }

/-- `MultiTargetPathFinder._bfs_search`. -/
def bfs_search (transitions : List (Transition σ γ))
    (current_states target_states : Finset σ) : Option (Path σ γ) :=
  let targets_in_current := target_states ∩ current_states
  let start_node : PathNode σ γ := .root current_states targets_in_current
  match bfsLoop transitions target_states
      (searchFuel transitions current_states target_states)
      [start_node] {start_node.key} with
  | some n => some (reconstruct_path n target_states)
  | none => none

/-- Extraction of a minimal-priority entry from the heap list: `heapq`'s
`heappop` returns an entry whose key `(cost, node)` is minimal; which of
several equal-priority entries is returned depends on the internal heap
layout, which the model fixes as the leftmost minimum. -/
def heapPop : List (ℚ × PathNode σ γ) →
    Option ((ℚ × PathNode σ γ) × List (ℚ × PathNode σ γ))
  | [] => none
  | e :: rest =>
    match heapPop rest with
    | none => some (e, [])
    | some (m, rest') => if e.1 ≤ m.1 then some (e, rest) else some (m, e :: rest')

/-- Lookup in the model of the Python dicts `best_costs`/`g_scores`
(association list; updates prepend, so `find?` sees the newest binding). -/
def lookupBest (best : List ((Finset σ × Finset σ) × ℚ)) (k : Finset σ × Finset σ) :
    Option ℚ :=
  (best.find? (fun p => p.1 = k)).map Prod.snd

/-- One Dijkstra relaxation step (the body of the successor loop in
`_dijkstra_search`): skip the child if its key is visited, otherwise push
it and update `best_costs` when it strictly improves on the recorded
cost. -/
def dijkstraRelax (target_states : Finset σ) (visited : Finset (Finset σ × Finset σ))
    (node : PathNode σ γ)
    (hb : List (ℚ × PathNode σ γ) × List ((Finset σ × Finset σ) × ℚ))
    (t : Transition σ γ) :
    List (ℚ × PathNode σ γ) × List ((Finset σ × Finset σ) × ℚ) :=
  let new_node := mkChild target_states node t
  let new_cost := node.cost + t.path_cost
  if new_node.key ∈ visited then hb
  else
    match lookupBest hb.2 new_node.key with
    | Option.none => (hb.1 ++ [(new_cost, new_node)], (new_node.key, new_cost) :: hb.2)
    | some b =>
      if new_cost < b then
        (hb.1 ++ [(new_cost, new_node)], (new_node.key, new_cost) :: hb.2)
      else hb

/-- `_dijkstra_search`'s main loop: lazy-deletion priority queue keyed by
accumulated cost, `visited` extended at pop time, re-push on strict
improvement of `best_costs`. -/
def dijkstraLoop (transitions : List (Transition σ γ)) (target_states : Finset σ) :
    ℕ → List (ℚ × PathNode σ γ) → Finset (Finset σ × Finset σ) →
    List ((Finset σ × Finset σ) × ℚ) → Option (PathNode σ γ)
  | 0, _, _, _ => none
  | fuel + 1, heap, visited, best_costs =>
    match heapPop heap with
    | none => none
    | some ((_current_cost, node), restHeap) =>
      if node.key ∈ visited then dijkstraLoop transitions target_states fuel restHeap visited best_costs
      else
        let visited' := insert node.key visited
        if node.targets_reached = target_states then some node
        else
          let step := (get_available_transitions transitions node.active_states).foldl
            (dijkstraRelax target_states visited' node) (restHeap, best_costs)
          dijkstraLoop transitions target_states fuel step.1 visited' step.2

/-- `MultiTargetPathFinder._dijkstra_search`. -/
def dijkstra_search (transitions : List (Transition σ γ))
    (current_states target_states : Finset σ) : Option (Path σ γ) :=
  let targets_in_current := target_states ∩ current_states
  let start_node : PathNode σ γ := .root current_states targets_in_current
  match dijkstraLoop transitions target_states
      (searchFuel transitions current_states target_states)
      [(0, start_node)] ∅ [(start_node.key, 0)] with
  | some n => some (reconstruct_path n target_states)
  | none => none

/-- `MultiTargetPathFinder._heuristic`: count of targets not yet
reached. -/
def heuristic (node : PathNode σ γ) (target_states : Finset σ) : ℚ :=
  ((target_states \ node.targets_reached).card : ℚ)

/-- One A* relaxation step (the body of the successor loop in
`_astar_search`): like `dijkstraRelax` but the heap is keyed by
`f = g + h`. -/
def astarRelax (target_states : Finset σ) (visited : Finset (Finset σ × Finset σ))
    (node : PathNode σ γ)
    (hb : List (ℚ × PathNode σ γ) × List ((Finset σ × Finset σ) × ℚ))
    (t : Transition σ γ) :
    List (ℚ × PathNode σ γ) × List ((Finset σ × Finset σ) × ℚ) :=
  let new_node := mkChild target_states node t
  let g_score := node.cost + t.path_cost
  if new_node.key ∈ visited then hb
  else
    match lookupBest hb.2 new_node.key with
    | Option.none =>
      (hb.1 ++ [(g_score + heuristic new_node target_states, new_node)],
        (new_node.key, g_score) :: hb.2)
    | some b =>
      if g_score < b then
        (hb.1 ++ [(g_score + heuristic new_node target_states, new_node)],
          (new_node.key, g_score) :: hb.2)
      else hb

/-- `_astar_search`'s main loop: like Dijkstra with the heap keyed by
`f = g + h` and the `g_scores` dict holding accumulated costs. -/
def astarLoop (transitions : List (Transition σ γ)) (target_states : Finset σ) :
    ℕ → List (ℚ × PathNode σ γ) → Finset (Finset σ × Finset σ) →
    List ((Finset σ × Finset σ) × ℚ) → Option (PathNode σ γ)
  | 0, _, _, _ => none
  | fuel + 1, heap, visited, g_scores =>
    match heapPop heap with
    | none => none
    | some ((_f, node), restHeap) =>
      if node.key ∈ visited then astarLoop transitions target_states fuel restHeap visited g_scores
      else
        let visited' := insert node.key visited
        if node.targets_reached = target_states then some node
        else
          let step := (get_available_transitions transitions node.active_states).foldl
            (astarRelax target_states visited' node) (restHeap, g_scores)
          astarLoop transitions target_states fuel step.1 visited' step.2

/-- `MultiTargetPathFinder._astar_search`. -/
def astar_search (transitions : List (Transition σ γ))
    (current_states target_states : Finset σ) : Option (Path σ γ) :=
  let targets_in_current := target_states ∩ current_states
  let start_node : PathNode σ γ := .root current_states targets_in_current
  match astarLoop transitions target_states
      (searchFuel transitions current_states target_states)
      [(heuristic start_node target_states, start_node)] ∅ [(start_node.key, 0)] with
  | some n => some (reconstruct_path n target_states)
  | none => none

/-- `MultiTargetPathFinder.find_path_to_all` (lines 137-173): the
empty-target and already-satisfied short-circuits, then strategy
dispatch. -/
def find_path_to_all (transitions : List (Transition σ γ)) (strategy : SearchStrategy)
    (current_states target_states : Finset σ) : Option (Path σ γ) :=
  if target_states = ∅ then
    some { states_sequence := [current_states], transitions_sequence := [],
           targets := target_states, total_cost := 0 }
  else if target_states ⊆ current_states then
    some { states_sequence := [current_states], transitions_sequence := [],
           targets := target_states, total_cost := 0 }
  else
    match strategy with
    | .BFS => bfs_search transitions current_states target_states
    | .DIJKSTRA => dijkstra_search transitions current_states target_states
    | .A_STAR => astar_search transitions current_states target_states

/-! ### Specification-side notions for the pathfinding claims -/

/-- A transition sequence is fireable from a configuration: each step is
one of the system's transitions and `can_fire` holds at its point
(spec §4.1/§4.3: candidate iff `can_fire(active_states)`; successor by
`_apply_transition`). -/
def validSeqB (transitions : List (Transition σ γ)) :
    Finset σ → List (Transition σ γ) → Bool
  | _, [] => true
  | A, t :: rest =>
    decide (t ∈ transitions) && t.can_execute_from A &&
      validSeqB transitions (apply_transition A t) rest

/-- The union of every configuration visited along a transition sequence
(the start configuration included). -/
def unionVisited : Finset σ → List (Transition σ γ) → Finset σ
  | A, [] => A
  | A, t :: rest => A ∪ unionVisited (apply_transition A t) rest

/-- A covering transition sequence from `current`: fireable, and the union
of the visited configurations is a superset of `target`. -/
def Covering (transitions : List (Transition σ γ))
    (current target : Finset σ) (s : List (Transition σ γ)) : Prop :=
  validSeqB transitions current s = true ∧ target ⊆ unionVisited current s

instance (transitions : List (Transition σ γ)) (current target : Finset σ)
    (s : List (Transition σ γ)) : Decidable (Covering transitions current target s) :=
  inferInstanceAs (Decidable (_ ∧ _))

/-- Total cost of a transition sequence. -/
def seqCost (s : List (Transition σ γ)) : ℚ :=
  (s.map Transition.path_cost).sum

/-- The `targets_reached` accumulator along a sequence: starting from
reached-set `R` in configuration `A`, each step adds the targets in the
successor configuration (matching `new_targets_reached` in the search
loops). -/
def reachedAfter (target : Finset σ) : Finset σ → Finset σ → List (Transition σ γ) → Finset σ
  | _, R, [] => R
  | A, R, t :: rest =>
    reachedAfter target (apply_transition A t) (R ∪ target ∩ apply_transition A t) rest

/-- The search keys `(configuration, targets_reached)` visited along a
sequence, start included. -/
def keyTrace (target : Finset σ) : Finset σ → Finset σ → List (Transition σ γ) →
    List (Finset σ × Finset σ)
  | A, R, [] => [(A, R)]
  | A, R, t :: rest =>
    (A, R) :: keyTrace target (apply_transition A t) (R ∪ target ∩ apply_transition A t) rest

/-- Fold of `_apply_transition` along a transition sequence. -/
def applySeq (A : Finset σ) (s : List (Transition σ γ)) : Finset σ :=
  s.foldl apply_transition A

/-- The search key `(configuration, targets_reached)` after the first `i`
steps of a transition sequence started at `S0`. -/
def traceKey (T S0 : Finset σ) (r : List (Transition σ γ)) (i : ℕ) :
    Finset σ × Finset σ :=
  (applySeq S0 (r.take i), reachedAfter T S0 (T ∩ S0) (r.take i))

/-- The configurations visited along a transition sequence, start
included (the `states_sequence` a reconstructed path reports). -/
def configsAlong : Finset σ → List (Transition σ γ) → List (Finset σ)
  | A, [] => [A]
  | A, t :: s => A :: configsAlong (apply_transition A t) s

/-- Hereditary well-formedness of a search-tree node: the whole parent
chain was built by `mkChild` steps over available transitions from the
start node `root S0 (T ∩ S0)`.  Every node the search loops enqueue
satisfies this. -/
def GoodTree (TS : List (Transition σ γ)) (S0 T : Finset σ) : PathNode σ γ → Prop
  | .root a r => a = S0 ∧ r = T ∩ S0
  | .child a r t p c d =>
    GoodTree TS S0 T p ∧ t ∈ TS ∧ t.can_execute_from p.active_states = true ∧
    a = apply_transition p.active_states t ∧
    r = p.targets_reached ∪ T ∩ apply_transition p.active_states t ∧
    c = p.cost + t.path_cost ∧ d = p.depth + 1

/-- A search node is *good* when its parent chain is a fireable sequence
of the system's transitions from the start configuration and its
`active_states` / `targets_reached` / `cost` / `depth` fields hold the
corresponding bookkeeping values of that sequence. -/
def GoodNode (transitions : List (Transition σ γ)) (current target : Finset σ)
    (n : PathNode σ γ) : Prop :=
  validSeqB transitions current n.chain = true
  ∧ n.active_states = applySeq current n.chain
  ∧ n.targets_reached = reachedAfter target current (target ∩ current) n.chain
  ∧ n.cost = seqCost n.chain
  ∧ n.depth = n.chain.length

/-- Loop invariant of `bfsLoop`: every queued node is hereditarily good,
its key is marked visited, visited keys lie in the finite joint search
space, and the FIFO queue's depths are sorted and span at most two
consecutive levels. -/
structure BfsInv (TS : List (Transition σ γ)) (S0 T : Finset σ)
    (q : List (PathNode σ γ)) (v : Finset (Finset σ × Finset σ)) : Prop where
  good : ∀ n ∈ q, GoodTree TS S0 T n
  keys : ∀ n ∈ q, n.key ∈ v
  univ : v ⊆ keyUniverse TS S0 T
  sorted : List.Pairwise (fun a b => a.depth ≤ b.depth) q
  twoLevel : ∀ n ∈ q, ∀ m ∈ q, n.depth ≤ m.depth + 1

/-- Progress of `bfsLoop` relative to a reference covering sequence `r`:
the queue holds a node sitting on `r`'s key trace at its optimal depth,
and no later trace key has been visited yet. -/
def BfsWitness (TS : List (Transition σ γ)) (S0 T : Finset σ)
    (r : List (Transition σ γ)) (q : List (PathNode σ γ))
    (v : Finset (Finset σ × Finset σ)) : Prop :=
  ∃ j ≤ r.length,
    (∃ n ∈ q, n.key = traceKey T S0 r j ∧ n.depth ≤ j) ∧
    ∀ m, j < m → m ≤ r.length → traceKey T S0 r m ∉ v

/-- Dijkstra's `best_costs` invariant: every recorded cost for an
unvisited key is matched by a live heap entry at most that expensive. -/
def BestInv (visited : Finset (Finset σ × Finset σ)) (hp : List (ℚ × PathNode σ γ))
    (best : List ((Finset σ × Finset σ) × ℚ)) : Prop :=
  ∀ K bb, K ∉ visited → lookupBest best K = some bb →
    ∃ e ∈ hp, (e : ℚ × PathNode σ γ).2.key = K ∧ e.1 ≤ bb

/-- Loop invariant of `dijkstraLoop`. -/
structure DijkstraInv (TS : List (Transition σ γ)) (S0 T : Finset σ)
    (heap : List (ℚ × PathNode σ γ)) (visited : Finset (Finset σ × Finset σ))
    (best : List ((Finset σ × Finset σ) × ℚ)) : Prop where
  good : ∀ e ∈ heap, GoodTree TS S0 T (e : ℚ × PathNode σ γ).2
  entry_cost : ∀ e ∈ heap, (e : ℚ × PathNode σ γ).1 = e.2.cost
  univ : visited ⊆ keyUniverse TS S0 T
  best_inv : BestInv visited heap best

/-- Progress of `dijkstraLoop` relative to a reference covering sequence
`r`: the heap holds an entry on `r`'s key trace within the prefix cost,
and no trace key from that point on has been popped yet. -/
def DijkstraWitness (TS : List (Transition σ γ)) (S0 T : Finset σ)
    (r : List (Transition σ γ)) (heap : List (ℚ × PathNode σ γ))
    (visited : Finset (Finset σ × Finset σ)) : Prop :=
  ∃ j ≤ r.length,
    (∃ e ∈ heap, (e : ℚ × PathNode σ γ).2.key = traceKey T S0 r j ∧
      e.1 ≤ seqCost (r.take j)) ∧
    ∀ m, j ≤ m → m ≤ r.length → traceKey T S0 r m ∉ visited

/-! ### Concrete systems used in counterexamples and witnesses -/

/-- Attribute map with no groups and no blocking states. -/
def plainAttrs : ℕ → StateAttrs ℕ := fun _ => ⟨none, false⟩

/-- Two blocking states of different groups (ids 0 and 1) and a
non-blocking state 2 in state 0's group. -/
def twoBlockerAttrs : ℕ → StateAttrs ℕ := fun s =>
  if s = 0 then ⟨some 10, true⟩
  else if s = 1 then ⟨some 20, true⟩
  else if s = 2 then ⟨some 10, false⟩
  else ⟨none, false⟩

/-- Wildcard transition activating state 2 (a member of group 10). -/
def joinGroup10 : Transition ℕ ℕ := { id := "join10", activate_states := {2} }

/-- A two-member group (id 5, states 0 and 1). -/
def pairGroup : StateGroup ℕ ℕ := ⟨5, {0, 1}⟩

/-- Attribute map where states 0 and 1 belong to group 5. -/
def pairedAttrs : ℕ → StateAttrs ℕ := fun s =>
  if s = 0 ∨ s = 1 then ⟨some 5, false⟩ else ⟨none, false⟩

/-- Wildcard transition activating only state 0, half of `pairGroup`. -/
def halfGroupTransition : Transition ℕ ℕ := { id := "half", activate_states := {0} }

/-- Transition requiring source state 1. -/
def needsOne : Transition ℕ ℕ := { id := "needs1", from_states := {1} }

/-- SHOW_SOURCE transition from state 0 activating state 2. -/
def showSource02 : Transition ℕ ℕ :=
  { id := "show02", from_states := {0}, activate_states := {2}, stays_visible := .TRUE }

/-- Line graph 0 → 1 → 2: first edge. -/
def tLine01 : Transition ℕ ℕ :=
  { id := "t01", from_states := {0}, activate_states := {1}, exit_states := {0} }

/-- Line graph 0 → 1 → 2: second edge. -/
def tLine12 : Transition ℕ ℕ :=
  { id := "t12", from_states := {1}, activate_states := {2}, exit_states := {1} }

/-- The line-graph transition system. -/
def lineTransitions : List (Transition ℕ ℕ) := [tLine01, tLine12]

/-- The default executor configuration
(`SuccessPolicy.STRICT`, threshold 0.8, strict mode). -/
def defaultExecutor : TransitionExecutor := {}

/-! ## Theorems -/

/-- **C1** (success-policy law): for an INCOMING phase over `n` activated
states of which `f` failed, STRICT succeeds iff `f = 0`, LENIENT always
succeeds, and (for `n > 0`) THRESHOLD(θ) succeeds iff `(n − f)/n ≥ θ`;
in particular THRESHOLD(0.66) with `n = 3`, `f = 1` succeeds and
THRESHOLD(0.70) with the same inputs fails. -/
theorem success_policy_law {σ : Type} [DecidableEq σ] (θ : ℚ)
    (activated failed : Finset σ) (hsub : failed ⊆ activated) :
    (TransitionExecutor.evaluate_incoming_success ⟨.STRICT, θ, true⟩ activated failed = true
      ↔ failed = ∅)
    ∧ TransitionExecutor.evaluate_incoming_success ⟨.LENIENT, θ, true⟩ activated failed = true
    ∧ (activated.Nonempty →
        (TransitionExecutor.evaluate_incoming_success ⟨.THRESHOLD, θ, true⟩ activated failed = true
          ↔ θ ≤ ((activated.card : ℚ) - (failed.card : ℚ)) / (activated.card : ℚ)))
    ∧ (activated.card = 3 → failed.card = 1 →
        TransitionExecutor.evaluate_incoming_success ⟨.THRESHOLD, 66/100, true⟩ activated failed
          = true)
    ∧ (activated.card = 3 → failed.card = 1 →
        TransitionExecutor.evaluate_incoming_success ⟨.THRESHOLD, 70/100, true⟩ activated failed
          = false) := by
  have hrate : ∀ (θ' : ℚ), activated ≠ ∅ →
      (TransitionExecutor.evaluate_incoming_success ⟨.THRESHOLD, θ', true⟩ activated failed = true
        ↔ θ' ≤ ((activated.card : ℚ) - (failed.card : ℚ)) / (activated.card : ℚ)) := by
    intro θ' hne
    have hpos : 0 < activated.card := Finset.card_pos.2 (Finset.nonempty_of_ne_empty hne)
    simp only [TransitionExecutor.evaluate_incoming_success, if_neg hne, if_pos hpos,
      decide_eq_true_eq]
    constructor
    · intro h
      calc θ' ≤ (((activated.card : ℤ) - (failed.card : ℤ) : ℤ) : ℚ) / (activated.card : ℚ) := h
        _ = ((activated.card : ℚ) - (failed.card : ℚ)) / (activated.card : ℚ) := by push_cast; ring
    · intro h
      calc θ' ≤ ((activated.card : ℚ) - (failed.card : ℚ)) / (activated.card : ℚ) := h
        _ = (((activated.card : ℤ) - (failed.card : ℤ) : ℤ) : ℚ) / (activated.card : ℚ) := by
              push_cast; ring
  by_cases hA : activated = ∅
  · subst hA
    have hf : failed = ∅ := Finset.subset_empty.1 hsub
    subst hf
    refine ⟨by simp [TransitionExecutor.evaluate_incoming_success],
      by simp [TransitionExecutor.evaluate_incoming_success], ?_, ?_, ?_⟩
    · intro h
      exact absurd rfl (Finset.nonempty_iff_ne_empty.1 h)
    · intro h
      simp at h
    · intro h
      simp at h
  · refine ⟨?_, ?_, ?_, ?_, ?_⟩
    · simp only [TransitionExecutor.evaluate_incoming_success, if_neg hA, decide_eq_true_eq,
        Finset.card_eq_zero]
    · simp only [TransitionExecutor.evaluate_incoming_success, if_neg hA]
    · intro _
      exact hrate θ hA
    · intro h3 h1
      rw [hrate (66/100) hA, h3, h1]
      norm_num
    · intro h3 h1
      have hiff := hrate (70/100) hA
      rw [h3, h1] at hiff
      rcases Bool.eq_false_or_eq_true
        (TransitionExecutor.evaluate_incoming_success ⟨.THRESHOLD, 70/100, true⟩ activated failed)
        with hb | hb
      · exfalso
        have := hiff.1 hb
        norm_num at this
      · exact hb

/-- **C1 witness**: scenario C — THRESHOLD(0.66) with 3 activated and
1 failed succeeds, THRESHOLD(0.70) with the same inputs fails. -/
theorem success_policy_law_witness :
    TransitionExecutor.evaluate_incoming_success ⟨.THRESHOLD, 66/100, true⟩
      ({0, 1, 2} : Finset ℕ) {0} = true
    ∧ TransitionExecutor.evaluate_incoming_success ⟨.THRESHOLD, 70/100, true⟩
      ({0, 1, 2} : Finset ℕ) {0} = false :=
  ⟨(success_policy_law (66/100) {0, 1, 2} {0} (by decide)).2.2.2.1 (by decide) (by decide),
   (success_policy_law (70/100) {0, 1, 2} {0} (by decide)).2.2.2.2 (by decide) (by decide)⟩

/-- **C2 counterexample**: with two blocking states active at once
(state 0 of group 10 and state 1 of group 20, scanned in that order) and a
transition whose activate-set `{2}` joins group 10 but shares no group
with blocking state 1, `can_execute` returns `true` — the claim requires
`false` for *each* blocking state present, so it fails on state 1. -/
theorem blocking_veto_counterexample :
    can_execute twoBlockerAttrs joinGroup10 [0, 1] = true
    ∧ (0 : ℕ) ∈ [0, 1] ∧ (1 : ℕ) ∈ ([0, 1] : List ℕ)
    ∧ (twoBlockerAttrs 1).blocking = true
    ∧ (∀ n ∈ joinGroup10.get_all_states_to_activate,
        (twoBlockerAttrs n).group ≠ (twoBlockerAttrs 1).group) := by
  decide

/-- **C2 amended** (blocking veto): if some active state is blocking and
the transition's resolved activate-set shares a group with *no* active
blocking state, then `can_execute` returns `false` (the source returns at
the first blocking state in iteration order, so only a group match with
every blocking state unmatched forces `false` regardless of order). -/
theorem blocking_veto_amended {σ γ : Type} [DecidableEq σ] [DecidableEq γ]
    (attrs : σ → StateAttrs γ) (t : Transition σ γ) (active : List σ)
    (hb : ∃ b ∈ active, (attrs b).blocking = true)
    (hnog : ∀ b ∈ active, (attrs b).blocking = true →
      ∀ g, (attrs b).group = some g →
        ∀ n ∈ t.get_all_states_to_activate, (attrs n).group ≠ some g) :
    can_execute attrs t active = false := by
  have hscan : ∀ (l : List σ), (∃ b ∈ l, (attrs b).blocking = true) →
      (∀ b ∈ l, (attrs b).blocking = true →
        ∀ g, (attrs b).group = some g →
          ∀ n ∈ t.get_all_states_to_activate, (attrs n).group ≠ some g) →
      blockingScan attrs t.get_all_states_to_activate l = false := by
    intro l
    induction l with
    | nil => intro hex _; simp at hex
    | cons s rest ih =>
      intro hex hno
      by_cases hbs : (attrs s).blocking = true
      · unfold blockingScan
        rw [if_pos hbs]
        cases hg : (attrs s).group with
        | none => rfl
        | some g =>
          show decide (∃ n ∈ t.get_all_states_to_activate, (attrs n).group = some g) = false
          apply decide_eq_false
          rintro ⟨n, hn, hng⟩
          exact hno s (List.mem_cons_self s rest) hbs g hg n hn hng
      · unfold blockingScan
        rw [if_neg hbs]
        apply ih
        · rcases hex with ⟨b, hbmem, hbb⟩
          rcases List.mem_cons.1 hbmem with hb1 | hb2
          · exact absurd (hb1 ▸ hbb) hbs
          · exact ⟨b, hb2, hbb⟩
        · intro b hbmem hbb g hg n hn
          exact hno b (List.mem_cons_of_mem s hbmem) hbb g hg n hn
  unfold can_execute
  split
  · rfl
  · exact hscan active hb hnog

/-- **C2 witness**: one blocking state (group 30) active and an
activate-set `{1}` in no group ⇒ `can_execute` is `false`. -/
theorem blocking_veto_amended_witness :
    can_execute (fun s => if s = 0 then ⟨some 30, true⟩ else ⟨none, false⟩)
      ({ id := "w2", activate_states := {1} } : Transition ℕ ℕ) [0] = false :=
  blocking_veto_amended _ _ _ ⟨0, by decide, by decide⟩ (by decide)

/-- The entries appended by the OUTGOING exception handler are OUTGOING
failures. -/
theorem outgoing_outcome_snd {σ γ : Type} [DecidableEq σ] [DecidableEq γ]
    (t : Transition σ γ) (cb : Option (TransitionCallbacks σ)) :
    ∀ pr ∈ (outgoing_outcome t cb).2, pr.phase = .OUTGOING ∧ pr.success = false := by
  cases cb with
  | some c => simp [outgoing_outcome]
  | none =>
    cases h : t.action with
    | none => simp [outgoing_outcome, h]
    | some a => cases a <;> simp [outgoing_outcome, h]

/-- Branch analysis of `executeS`: the caller's active set is returned
unchanged, and the result is one of the four shapes — VALIDATE failure,
OUTGOING failure, INCOMING (policy) failure, or full success. -/
theorem executeS_shape {σ γ : Type} [DecidableEq σ] [DecidableEq γ]
    (ex : TransitionExecutor) (attrs : σ → StateAttrs γ) (t : Transition σ γ)
    (active : List σ) (cb : Option (TransitionCallbacks σ)) :
    (ex.executeS attrs t active cb).2 = active ∧
    ((¬can_execute attrs t active = true ∧
        (ex.executeS attrs t active cb).1 =
          ⟨false, [⟨.VALIDATE, false, "Transition cannot execute from current state", .none⟩],
            ∅, ∅, none⟩)
      ∨ (can_execute attrs t active = true ∧ ¬(outgoing_outcome t cb).1 = true ∧
          (ex.executeS attrs t active cb).1 =
            ⟨false, ⟨.VALIDATE, true, "All preconditions satisfied", .none⟩ ::
              (if (outgoing_outcome t cb).2 = [] then
                [⟨.OUTGOING, false, "Outgoing transition failed", .none⟩]
               else (outgoing_outcome t cb).2), ∅, ∅, none⟩)
      ∨ (can_execute attrs t active = true ∧ (outgoing_outcome t cb).1 = true ∧
          ¬ex.evaluate_incoming_success t.get_all_states_to_activate
              (incoming_failures t cb) = true ∧
          (ex.executeS attrs t active cb).1 =
            ⟨false,
              [⟨.VALIDATE, true, "All preconditions satisfied", .none⟩,
               ⟨.OUTGOING, true, "Outgoing transition completed", .none⟩,
               ⟨.ACTIVATE, true, activate_message t.get_all_states_to_activate.card,
                 .activated t.get_all_states_to_activate⟩,
               ⟨.INCOMING,
                 ex.evaluate_incoming_success t.get_all_states_to_activate
                   (incoming_failures t cb),
                 incoming_message
                   (t.get_all_states_to_activate.card - (incoming_failures t cb).card)
                   t.get_all_states_to_activate.card,
                 .incoming (t.get_all_states_to_activate \ incoming_failures t cb)
                   (incoming_failures t cb)⟩], ∅, ∅, none⟩)
      ∨ (can_execute attrs t active = true ∧ (outgoing_outcome t cb).1 = true ∧
          ex.evaluate_incoming_success t.get_all_states_to_activate
            (incoming_failures t cb) = true ∧
          (ex.executeS attrs t active cb).1 =
            ⟨true,
              [⟨.VALIDATE, true, "All preconditions satisfied", .none⟩,
               ⟨.OUTGOING, true, "Outgoing transition completed", .none⟩,
               ⟨.ACTIVATE, true, activate_message t.get_all_states_to_activate.card,
                 .activated t.get_all_states_to_activate⟩,
               ⟨.INCOMING,
                 ex.evaluate_incoming_success t.get_all_states_to_activate
                   (incoming_failures t cb),
                 incoming_message
                   (t.get_all_states_to_activate.card - (incoming_failures t cb).card)
                   t.get_all_states_to_activate.card,
                 .incoming (t.get_all_states_to_activate \ incoming_failures t cb)
                   (incoming_failures t cb)⟩,
               ⟨.EXIT, true, exit_message t.get_all_states_to_exit.card,
                 .deactivated t.get_all_states_to_exit⟩,
               ⟨.VISIBILITY, true, "Visibility updated",
                 update_visibility t active.toFinset t.get_all_states_to_activate⟩,
               ⟨.CLEANUP, true, "Cleanup completed", .none⟩],
              t.get_all_states_to_activate, t.get_all_states_to_exit, none⟩)) := by
  simp only [TransitionExecutor.executeS]
  by_cases h1 : can_execute attrs t active = true
  · have hv : t.validate_groups active.toFinset = true := rfl
    rw [if_neg (not_not_intro h1)]
    rw [if_neg (not_not_intro hv)]
    by_cases h3 : (outgoing_outcome t cb).1 = true
    · rw [if_neg (not_not_intro h3)]
      by_cases h4 : ex.evaluate_incoming_success t.get_all_states_to_activate
          (incoming_failures t cb) = true
      · rw [if_neg (not_not_intro h4)]
        exact ⟨rfl, Or.inr (Or.inr (Or.inr ⟨h1, h3, h4, rfl⟩))⟩
      · rw [if_pos h4]
        exact ⟨rfl, Or.inr (Or.inr (Or.inl ⟨h1, h3, h4, rfl⟩))⟩
    · rw [if_pos h3]
      exact ⟨rfl, Or.inr (Or.inl ⟨h1, h3, rfl⟩)⟩
  · rw [if_pos h1]
    exact ⟨rfl, Or.inl ⟨h1, rfl⟩⟩

/-- **C10** (empty activate-set): `_evaluate_incoming_success` on an empty
activated set returns `true` under every policy and threshold (the guarded
division is never reached), and on any `execute` run of a transition with
an empty resolved activate-set, every INCOMING phase entry that was
appended reports success. -/
theorem empty_activate_incoming {σ γ : Type} [DecidableEq σ] [DecidableEq γ]
    (ex : TransitionExecutor) (attrs : σ → StateAttrs γ) (t : Transition σ γ)
    (active : List σ) (cb : Option (TransitionCallbacks σ))
    (h : t.get_all_states_to_activate = ∅) :
    (∀ failed : Finset σ, ex.evaluate_incoming_success (∅ : Finset σ) failed = true)
    ∧ ∀ pr ∈ (ex.execute attrs t active cb).phase_results,
        pr.phase = .INCOMING → pr.success = true := by
  have heval : ∀ failed : Finset σ, ex.evaluate_incoming_success (∅ : Finset σ) failed = true := by
    intro failed
    simp [TransitionExecutor.evaluate_incoming_success]
  refine ⟨heval, ?_⟩
  have hshape := executeS_shape ex attrs t active cb
  unfold TransitionExecutor.execute
  rcases hshape.2 with ⟨_, hres⟩ | ⟨_, _, hres⟩ | ⟨_, _, hfail, _⟩ | ⟨_, _, htrue, hres⟩
  · rw [hres]
    intro pr hpr hph
    simp only [List.mem_singleton] at hpr
    subst hpr
    cases hph
  · rw [hres]
    intro pr hpr hph
    simp only [List.mem_cons] at hpr
    rcases hpr with hpr | hpr
    · subst hpr; cases hph
    · split at hpr
      · simp only [List.mem_singleton] at hpr
        subst hpr; cases hph
      · have := (outgoing_outcome_snd t cb pr hpr).1
        rw [this] at hph
        cases hph
  · rw [h] at hfail
    exact absurd (heval _) hfail
  · rw [hres]
    intro pr hpr hph
    simp only [List.mem_cons, List.not_mem_nil, or_false] at hpr
    rcases hpr with hpr | hpr | hpr | hpr | hpr | hpr | hpr <;> subst hpr
    · cases hph
    · cases hph
    · cases hph
    · exact htrue
    · cases hph
    · cases hph
    · cases hph

/-- **C10 witness**: a wildcard transition with an empty activate-set
runs to success and its INCOMING entry succeeds under THRESHOLD(1). -/
theorem empty_activate_incoming_witness :
    Transition.get_all_states_to_activate ({ id := "noop" } : Transition ℕ ℕ) = ∅
    ∧ TransitionExecutor.evaluate_incoming_success ⟨.THRESHOLD, 1, true⟩ (∅ : Finset ℕ) ∅ = true
    ∧ ∀ pr ∈ (TransitionExecutor.execute ⟨.THRESHOLD, 1, true⟩ plainAttrs
        ({ id := "noop" } : Transition ℕ ℕ) [0] none).phase_results,
        pr.phase = .INCOMING → pr.success = true :=
  ⟨by decide,
   (empty_activate_incoming ⟨.THRESHOLD, 1, true⟩ plainAttrs { id := "noop" } [0] none
     (by decide)).1 ∅,
   (empty_activate_incoming ⟨.THRESHOLD, 1, true⟩ plainAttrs { id := "noop" } [0] none
     (by decide)).2⟩

/-- **C5** (frame property): `execute` returns the caller's active-state
set unchanged in every branch, and on success the state delta is reported
only through the result's `activated_states`/`deactivated_states` fields,
which hold exactly the resolved activate- and exit-sets. -/
theorem executor_frame {σ γ : Type} [DecidableEq σ] [DecidableEq γ]
    (ex : TransitionExecutor) (attrs : σ → StateAttrs γ) (t : Transition σ γ)
    (active : List σ) (cb : Option (TransitionCallbacks σ)) :
    (ex.executeS attrs t active cb).2 = active
    ∧ ((ex.execute attrs t active cb).success = true →
        (ex.execute attrs t active cb).activated_states = t.get_all_states_to_activate
        ∧ (ex.execute attrs t active cb).deactivated_states = t.get_all_states_to_exit) := by
  have hshape := executeS_shape ex attrs t active cb
  refine ⟨hshape.1, ?_⟩
  unfold TransitionExecutor.execute
  rcases hshape.2 with ⟨_, hres⟩ | ⟨_, _, hres⟩ | ⟨_, _, _, hres⟩ | ⟨_, _, _, hres⟩ <;>
    rw [hres] <;> intro hsucc
  · cases hsucc
  · cases hsucc
  · cases hsucc
  · exact ⟨rfl, rfl⟩

/-- **C5 witness**: the frame property at a concrete successful run. -/
theorem executor_frame_witness :
    (TransitionExecutor.executeS defaultExecutor plainAttrs tLine01 [0] none).2 = [0]
    ∧ ((TransitionExecutor.execute defaultExecutor plainAttrs tLine01 [0] none).success = true →
        (TransitionExecutor.execute defaultExecutor plainAttrs tLine01 [0] none).activated_states
          = tLine01.get_all_states_to_activate
        ∧ (TransitionExecutor.execute defaultExecutor plainAttrs tLine01 [0] none).deactivated_states
          = tLine01.get_all_states_to_exit) :=
  executor_frame defaultExecutor plainAttrs tLine01 [0] none

/-- **C4 counterexample**: a run stopping at a failing VALIDATE phase
(source state 1 is not active) returns a result whose `phase_results`
contains no CLEANUP entry, contradicting the claim that a CLEANUP phase
result is appended on every run. -/
theorem cleanup_counterexample :
    (TransitionExecutor.execute defaultExecutor plainAttrs needsOne [] none).success = false
    ∧ ∀ pr ∈ (TransitionExecutor.execute defaultExecutor plainAttrs needsOne [] none).phase_results,
        pr.phase ≠ .CLEANUP := by
  decide

/-- **C4 amended** (CLEANUP contract): `execute` always returns a
structured `TransitionResult` (the embedding is a total function; every
raising user callable is confined by a local handler), and a CLEANUP phase
result is appended exactly on fully successful runs — runs stopping at a
failing VALIDATE, OUTGOING or INCOMING phase return without a CLEANUP
entry. -/
theorem cleanup_iff_success {σ γ : Type} [DecidableEq σ] [DecidableEq γ]
    (ex : TransitionExecutor) (attrs : σ → StateAttrs γ) (t : Transition σ γ)
    (active : List σ) (cb : Option (TransitionCallbacks σ)) :
    (∃ pr ∈ (ex.execute attrs t active cb).phase_results, pr.phase = .CLEANUP)
      ↔ (ex.execute attrs t active cb).success = true := by
  have hshape := executeS_shape ex attrs t active cb
  unfold TransitionExecutor.execute
  rcases hshape.2 with ⟨_, hres⟩ | ⟨_, _, hres⟩ | ⟨_, _, _, hres⟩ | ⟨_, _, _, hres⟩ <;> rw [hres]
  · constructor
    · rintro ⟨pr, hpr, hph⟩
      simp only [List.mem_singleton] at hpr
      subst hpr
      cases hph
    · intro hsucc
      cases hsucc
  · constructor
    · rintro ⟨pr, hpr, hph⟩
      simp only [List.mem_cons] at hpr
      rcases hpr with hpr | hpr
      · subst hpr; cases hph
      · split at hpr
        · simp only [List.mem_singleton] at hpr
          subst hpr; cases hph
        · have := (outgoing_outcome_snd t cb pr hpr).1
          rw [this] at hph
          cases hph
    · intro hsucc
      cases hsucc
  · constructor
    · rintro ⟨pr, hpr, hph⟩
      simp only [List.mem_cons, List.not_mem_nil, or_false] at hpr
      rcases hpr with hpr | hpr | hpr | hpr <;> subst hpr <;> cases hph
    · intro hsucc
      cases hsucc
  · constructor
    · intro _
      rfl
    · intro _
      exact ⟨⟨.CLEANUP, true, "Cleanup completed", .none⟩, by simp, rfl⟩

/-- **C6 counterexample**: a SHOW_SOURCE transition with
`from_states = {0}` executed from the active set `{0, 1}` produces a
VISIBILITY entry whose show-set is `{0, 1}` — the whole surviving *active*
set, not the surviving `transition.from_states` (`{0}`), contradicting
the claim. -/
theorem visibility_counterexample :
    (TransitionExecutor.execute defaultExecutor plainAttrs showSource02 [0, 1] none).success = true
    ∧ (∃ pr ∈ (TransitionExecutor.execute defaultExecutor plainAttrs
          showSource02 [0, 1] none).phase_results,
        pr.phase = .VISIBILITY ∧ pr.data = .visibility .TRUE ∅ {0, 1})
    ∧ ({0, 1} : Finset ℕ) ≠ showSource02.from_states \ showSource02.get_all_states_to_exit := by
  decide

/-- **C6 amended** (visibility phase): on every execution that reaches the
VISIBILITY phase, the show/hide sets are computed over the *caller's
active set* minus the resolved exit-set (not over
`transition.from_states`): SHOW_SOURCE puts exactly those states in the
show-set, HIDE_SOURCE puts exactly them in the hide-set, INHERIT leaves
both empty; the phase entry always reports success. -/
theorem visibility_phase_amended {σ γ : Type} [DecidableEq σ] [DecidableEq γ]
    (ex : TransitionExecutor) (attrs : σ → StateAttrs γ) (t : Transition σ γ)
    (active : List σ) (cb : Option (TransitionCallbacks σ))
    (h : (ex.execute attrs t active cb).success = true) :
    ∃ pr ∈ (ex.execute attrs t active cb).phase_results,
      pr.phase = .VISIBILITY ∧ pr.success = true ∧
      pr.data = .visibility t.stays_visible
        (if t.stays_visible = .FALSE then active.toFinset \ t.get_all_states_to_exit else ∅)
        (if t.stays_visible = .TRUE then active.toFinset \ t.get_all_states_to_exit else ∅) := by
  have hshape := executeS_shape ex attrs t active cb
  unfold TransitionExecutor.execute at h ⊢
  rcases hshape.2 with ⟨_, hres⟩ | ⟨_, _, hres⟩ | ⟨_, _, _, hres⟩ | ⟨_, _, _, hres⟩ <;>
      rw [hres] at h ⊢
  · cases h
  · cases h
  · cases h
  · refine ⟨⟨.VISIBILITY, true, "Visibility updated",
      update_visibility t active.toFinset t.get_all_states_to_activate⟩, by simp, rfl, rfl, ?_⟩
    unfold update_visibility
    cases t.stays_visible <;> simp

/-- **C6 witness**: the amended visibility characterization at a concrete
HIDE_SOURCE run. -/
theorem visibility_phase_amended_witness :
    ∃ pr ∈ (TransitionExecutor.execute defaultExecutor plainAttrs
        { id := "hide", from_states := {0}, activate_states := {1}, exit_states := {0},
          stays_visible := .FALSE } [0] none).phase_results,
      pr.phase = .VISIBILITY ∧ pr.success = true ∧
      pr.data = .visibility .FALSE
        (List.toFinset [0] \ Transition.get_all_states_to_exit
          ({ id := "hide", from_states := {0}, activate_states := {1}, exit_states := {0},
             stays_visible := .FALSE } : Transition ℕ ℕ)) ∅ :=
  visibility_phase_amended defaultExecutor plainAttrs _ [0] none (by decide)

/-- **C7** (idempotence / identity path): whenever the targets are already
contained in the start configuration (the empty target set included),
`find_path_to_all` returns, for every strategy, the immediate path with
one snapshot `[S0]`, no transitions and total cost `0`. -/
theorem idempotent_identity_path {σ γ : Type} [DecidableEq σ] [DecidableEq γ]
    (transitions : List (Transition σ γ)) (strategy : SearchStrategy)
    (S0 T : Finset σ) (h : T ⊆ S0) :
    find_path_to_all transitions strategy S0 T =
      some { states_sequence := [S0], transitions_sequence := [],
             targets := T, total_cost := 0 } := by
  unfold find_path_to_all
  by_cases hT : T = ∅
  · rw [if_pos hT]
  · rw [if_neg hT, if_pos h]

/-- **C7 witness**: identity path on the line graph with `T ⊆ S0`. -/
theorem idempotent_identity_path_witness :
    find_path_to_all lineTransitions .DIJKSTRA {0, 1} {1} =
      some { states_sequence := [{0, 1}], transitions_sequence := [],
             targets := {1}, total_cost := 0 } :=
  idempotent_identity_path lineTransitions .DIJKSTRA {0, 1} {1} (by decide)

/-- **C9** (group-atomicity invariant, claim right / code wrong): the
configuration `∅` satisfies atomicity for the two-member group `{0, 1}`;
the wildcard transition activating only state 0 passes the whole VALIDATE
phase (`can_execute` and the stubbed `validate_groups` both accept, and
`execute` runs to success), yet committing its delta yields `{0}`, on
which `StateGroup.validate_atomicity` fails — `validate_groups` returns
`True` unconditionally instead of checking the documented post-transition
atomicity. -/
theorem group_atomicity_code_bug :
    pairGroup.validate_atomicity ∅ = true
    ∧ can_execute pairedAttrs halfGroupTransition [] = true
    ∧ halfGroupTransition.validate_groups ∅ = true
    ∧ (TransitionExecutor.execute defaultExecutor pairedAttrs halfGroupTransition [] none).success
        = true
    ∧ pairGroup.validate_atomicity (get_result_states halfGroupTransition ∅) = false := by
  decide

/-! ### Transition-sequence lemmas -/

theorem applySeq_nil (A : Finset σ) : applySeq A ([] : List (Transition σ γ)) = A := rfl

theorem applySeq_cons (A : Finset σ) (t : Transition σ γ) (s : List (Transition σ γ)) :
    applySeq A (t :: s) = applySeq (apply_transition A t) s := rfl

theorem applySeq_append (A : Finset σ) (s u : List (Transition σ γ)) :
    applySeq A (s ++ u) = applySeq (applySeq A s) u :=
  List.foldl_append _ _ _ _

theorem validSeqB_nil (TS : List (Transition σ γ)) (A : Finset σ) :
    validSeqB TS A [] = true := rfl

theorem validSeqB_cons (TS : List (Transition σ γ)) (A : Finset σ) (t : Transition σ γ) (s) :
    validSeqB TS A (t :: s) =
      (decide (t ∈ TS) && t.can_execute_from A && validSeqB TS (apply_transition A t) s) := rfl

theorem validSeqB_append (TS : List (Transition σ γ)) :
    ∀ (s u : List (Transition σ γ)) (A : Finset σ),
      validSeqB TS A (s ++ u) = (validSeqB TS A s && validSeqB TS (applySeq A s) u) := by
  intro s
  induction s with
  | nil => intro u A; simp [validSeqB_nil, applySeq_nil]
  | cons t s ih =>
    intro u A
    rw [List.cons_append, validSeqB_cons, validSeqB_cons, ih u (apply_transition A t),
      applySeq_cons]
    simp [Bool.and_assoc]

theorem reachedAfter_nil (T A R : Finset σ) :
    reachedAfter T A R ([] : List (Transition σ γ)) = R := rfl

theorem reachedAfter_cons (T A R : Finset σ) (t : Transition σ γ) (s) :
    reachedAfter T A R (t :: s) =
      reachedAfter T (apply_transition A t) (R ∪ T ∩ apply_transition A t) s := rfl

theorem reachedAfter_append (T : Finset σ) :
    ∀ (s u : List (Transition σ γ)) (A R : Finset σ),
      reachedAfter T A R (s ++ u) = reachedAfter T (applySeq A s) (reachedAfter T A R s) u := by
  intro s
  induction s with
  | nil => intro u A R; rfl
  | cons t s ih =>
    intro u A R
    rw [List.cons_append, reachedAfter_cons, reachedAfter_cons, ih, applySeq_cons]

theorem subset_unionVisited (A : Finset σ) (s : List (Transition σ γ)) :
    A ⊆ unionVisited A s := by
  cases s with
  | nil => exact Finset.Subset.refl A
  | cons t s => exact Finset.subset_union_left

theorem reachedAfter_union_eq (T : Finset σ) :
    ∀ (s : List (Transition σ γ)) (A R : Finset σ), T ∩ A ⊆ R →
      reachedAfter T A R s = R ∪ T ∩ unionVisited A s := by
  intro s
  induction s with
  | nil =>
    intro A R h
    rw [reachedAfter_nil]
    unfold unionVisited
    rw [Finset.union_eq_left.2 h]
  | cons t s ih =>
    intro A R h
    rw [reachedAfter_cons]
    unfold unionVisited
    rw [ih (apply_transition A t) (R ∪ T ∩ apply_transition A t) Finset.subset_union_right]
    ext x
    simp only [Finset.mem_union, Finset.mem_inter]
    have hx : x ∈ T ∧ x ∈ A → x ∈ R := fun hh => h (Finset.mem_inter.2 hh)
    have hx2 : x ∈ apply_transition A t → x ∈ unionVisited (apply_transition A t) s :=
      fun hh => subset_unionVisited _ s hh
    tauto

/-- A sequence is covering iff it is fireable and its accumulated
`targets_reached` value equals the whole target set. -/
theorem covering_iff (TS : List (Transition σ γ)) (S0 T : Finset σ)
    (s : List (Transition σ γ)) :
    Covering TS S0 T s ↔
      (validSeqB TS S0 s = true ∧ reachedAfter T S0 (T ∩ S0) s = T) := by
  unfold Covering
  refine and_congr_right fun _ => ?_
  rw [reachedAfter_union_eq T s S0 (T ∩ S0) (Finset.Subset.refl _)]
  have hsub : S0 ⊆ unionVisited S0 s := subset_unionVisited S0 s
  constructor
  · intro h
    have h1 : T ∩ unionVisited S0 s = T := Finset.inter_eq_left.2 h
    have h2 : T ∩ S0 ⊆ T ∩ unionVisited S0 s :=
      Finset.inter_subset_inter (Finset.Subset.refl T) hsub
    rw [Finset.union_eq_right.2 h2, h1]
  · intro h
    intro x hx
    have : x ∈ T ∩ S0 ∪ T ∩ unionVisited S0 s := by rw [h]; exact hx
    rcases Finset.mem_union.1 this with hx1 | hx2
    · exact hsub (Finset.mem_inter.1 hx1).2
    · exact (Finset.mem_inter.1 hx2).2

theorem seqCost_nil : seqCost ([] : List (Transition σ γ)) = 0 := rfl

theorem seqCost_append (s u : List (Transition σ γ)) :
    seqCost (s ++ u) = seqCost s + seqCost u := by
  simp [seqCost]

/-! ### PathNode lemmas -/

theorem chain_root (A R : Finset σ) :
    (PathNode.root A R : PathNode σ γ).chain = [] := rfl

theorem mkChild_chain (T : Finset σ) (n : PathNode σ γ) (t : Transition σ γ) :
    (mkChild T n t).chain = n.chain ++ [t] := rfl

theorem mkChild_active (T : Finset σ) (n : PathNode σ γ) (t : Transition σ γ) :
    (mkChild T n t).active_states = apply_transition n.active_states t := rfl

theorem mkChild_reached (T : Finset σ) (n : PathNode σ γ) (t : Transition σ γ) :
    (mkChild T n t).targets_reached =
      n.targets_reached ∪ T ∩ apply_transition n.active_states t := rfl

theorem mkChild_cost (T : Finset σ) (n : PathNode σ γ) (t : Transition σ γ) :
    (mkChild T n t).cost = n.cost + t.path_cost := rfl

theorem mkChild_depth (T : Finset σ) (n : PathNode σ γ) (t : Transition σ γ) :
    (mkChild T n t).depth = n.depth + 1 := rfl

theorem GoodNode_root (TS : List (Transition σ γ)) (S0 T : Finset σ) :
    GoodNode TS S0 T (.root S0 (T ∩ S0)) :=
  ⟨rfl, rfl, rfl, rfl, rfl⟩

theorem available_iff (TS : List (Transition σ γ)) (A : Finset σ) (t : Transition σ γ) :
    t ∈ get_available_transitions TS A ↔ t ∈ TS ∧ t.can_execute_from A = true := by
  simp [get_available_transitions, List.mem_filter]

theorem GoodNode_child {TS : List (Transition σ γ)} {S0 T : Finset σ} {n : PathNode σ γ}
    {t : Transition σ γ} (h : GoodNode TS S0 T n) (ht : t ∈ TS)
    (hf : t.can_execute_from n.active_states = true) :
    GoodNode TS S0 T (mkChild T n t) := by
  obtain ⟨h1, h2, h3, h4, h5⟩ := h
  refine ⟨?_, ?_, ?_, ?_, ?_⟩
  · rw [mkChild_chain, validSeqB_append, h1, Bool.true_and, validSeqB_cons, validSeqB_nil,
      ← h2]
    simp [ht, hf]
  · rw [mkChild_active, mkChild_chain, applySeq_append, applySeq_cons, applySeq_nil, ← h2]
  · rw [mkChild_reached, mkChild_chain, reachedAfter_append, reachedAfter_cons,
      reachedAfter_nil, ← h2, ← h3]
  · rw [mkChild_cost, mkChild_chain, seqCost_append, h4]
    simp [seqCost]
  · rw [mkChild_depth, mkChild_chain, List.length_append, h5]
    rfl

/-- A good node that has reached all targets yields a covering sequence:
its chain. -/
theorem GoodNode.covering {TS : List (Transition σ γ)} {S0 T : Finset σ}
    {n : PathNode σ γ} (h : GoodNode TS S0 T n) (hr : n.targets_reached = T) :
    Covering TS S0 T n.chain := by
  rw [covering_iff]
  exact ⟨h.1, by rw [← h.2.2.1, hr]⟩

/-! ### BFS fold and loop lemmas -/

/-- Full characterization of the BFS successor fold: it appends a block
`sub` of fresh children to the queue, adds exactly their keys to
`visited`, every child of an available transition ends with its key
visited, and the added keys are pairwise distinct and previously
unvisited. -/
theorem bfsFold_spec (T : Finset σ) (node : PathNode σ γ) :
    ∀ (ts : List (Transition σ γ)) (q : List (PathNode σ γ))
      (v : Finset (Finset σ × Finset σ)),
      ∃ sub : List (PathNode σ γ),
        (ts.foldl (bfsEnqueue T node) (q, v)).1 = q ++ sub
        ∧ (ts.foldl (bfsEnqueue T node) (q, v)).2 = v ∪ (sub.map PathNode.key).toFinset
        ∧ (∀ n ∈ sub, ∃ t ∈ ts, n = mkChild T node t)
        ∧ (∀ t ∈ ts, (mkChild T node t).key ∈ (ts.foldl (bfsEnqueue T node) (q, v)).2)
        ∧ (sub.map PathNode.key).Nodup
        ∧ (∀ n ∈ sub, n.key ∉ v) := by
  intro ts
  induction ts with
  | nil =>
    intro q v
    exact ⟨[], by simp, by simp, by simp, by simp, by simp, by simp⟩
  | cons t ts ih =>
    intro q v
    rw [List.foldl_cons]
    by_cases hc : (mkChild T node t).key ∈ v
    · have he : bfsEnqueue T node (q, v) t = (q, v) := by
        unfold bfsEnqueue
        rw [if_pos hc]
      rw [he]
      obtain ⟨sub, hs1, hs2, hs3, hs4, hs5, hs6⟩ := ih q v
      refine ⟨sub, hs1, hs2, ?_, ?_, hs5, hs6⟩
      · intro n hn
        obtain ⟨t', ht', hn'⟩ := hs3 n hn
        exact ⟨t', List.mem_cons_of_mem t ht', hn'⟩
      · intro t' ht'
        rcases List.mem_cons.1 ht' with ht' | ht'
        · subst ht'
          rw [hs2]
          exact Finset.mem_union_left _ hc
        · exact hs4 t' ht'
    · have he : bfsEnqueue T node (q, v) t =
          (q ++ [mkChild T node t], insert (mkChild T node t).key v) := by
        unfold bfsEnqueue
        rw [if_neg hc]
      rw [he]
      obtain ⟨sub, hs1, hs2, hs3, hs4, hs5, hs6⟩ :=
        ih (q ++ [mkChild T node t]) (insert (mkChild T node t).key v)
      refine ⟨mkChild T node t :: sub, ?_, ?_, ?_, ?_, ?_, ?_⟩
      · rw [hs1, List.append_assoc]
        rfl
      · rw [hs2]
        ext k
        simp only [Finset.mem_union, Finset.mem_insert, List.map_cons, List.toFinset_cons,
          List.mem_toFinset]
        tauto
      · intro n hn
        rcases List.mem_cons.1 hn with hn | hn
        · exact ⟨t, List.mem_cons_self t ts, hn⟩
        · obtain ⟨t', ht', hn'⟩ := hs3 n hn
          exact ⟨t', List.mem_cons_of_mem t ht', hn'⟩
      · intro t' ht'
        rcases List.mem_cons.1 ht' with ht' | ht'
        · subst ht'
          rw [hs2]
          exact Finset.mem_union_left _ (Finset.mem_insert_self _ _)
        · exact hs4 t' ht'
      · rw [List.map_cons]
        refine List.nodup_cons.2 ⟨?_, hs5⟩
        intro hmem
        obtain ⟨n, hn, hkey⟩ := List.mem_map.1 hmem
        exact hs6 n hn (hkey ▸ Finset.mem_insert_self _ _)
      · intro n hn
        rcases List.mem_cons.1 hn with hn | hn
        · subst hn
          exact hc
        · intro hv
          exact hs6 n hn (Finset.mem_insert_of_mem hv)

/-- BFS soundness: any node the loop returns is a good node that has
reached the whole target set. -/
theorem bfsLoop_sound (TS : List (Transition σ γ)) (S0 T : Finset σ) :
    ∀ (fuel : ℕ) (q : List (PathNode σ γ)) (v : Finset (Finset σ × Finset σ)),
      (∀ n ∈ q, GoodNode TS S0 T n) →
      ∀ g, bfsLoop TS T fuel q v = some g →
        GoodNode TS S0 T g ∧ g.targets_reached = T := by
  intro fuel
  induction fuel with
  | zero =>
    intro q v _ g hg
    simp [bfsLoop] at hg
  | succ fuel ih =>
    intro q v hq g hg
    cases q with
    | nil => simp [bfsLoop] at hg
    | cons node rest =>
      by_cases hgoal : node.targets_reached = T
      · simp only [bfsLoop] at hg
        rw [if_pos hgoal] at hg
        cases hg
        exact ⟨hq _ (List.mem_cons_self _ _), hgoal⟩
      · simp only [bfsLoop] at hg
        rw [if_neg hgoal] at hg
        obtain ⟨sub, hs1, -, hs3, -, -, -⟩ :=
          bfsFold_spec T node (get_available_transitions TS node.active_states) rest v
        refine ih _ _ ?_ g hg
        rw [hs1]
        intro n hn
        rcases List.mem_append.1 hn with hn | hn
        · exact hq n (List.mem_cons_of_mem _ hn)
        · obtain ⟨t, ht, hn'⟩ := hs3 n hn
          obtain ⟨htTS, htf⟩ := (available_iff TS node.active_states t).1 ht
          exact hn' ▸ GoodNode_child (hq node (List.mem_cons_self _ _)) htTS htf

/-! ### Heap lemmas -/

theorem heapPop_none (l : List (ℚ × PathNode σ γ)) :
    heapPop l = none ↔ l = [] := by
  cases l with
  | nil => simp [heapPop]
  | cons e rest =>
    simp only [heapPop]
    cases h : heapPop rest with
    | none => simp
    | some m =>
      obtain ⟨m, rest'⟩ := m
      by_cases hle : e.1 ≤ m.1 <;> simp [hle]

theorem heapPop_mem {l : List (ℚ × PathNode σ γ)} {m : ℚ × PathNode σ γ}
    {rest : List (ℚ × PathNode σ γ)} (h : heapPop l = some (m, rest)) : m ∈ l := by
  induction l generalizing m rest with
  | nil => simp [heapPop] at h
  | cons e l ih =>
    simp only [heapPop] at h
    cases hl : heapPop l with
    | none =>
      rw [hl] at h
      dsimp only at h
      cases h
      exact List.mem_cons_self _ _
    | some p =>
      obtain ⟨m0, rest0⟩ := p
      rw [hl] at h
      dsimp only at h
      by_cases hle : e.1 ≤ m0.1
      · rw [if_pos hle] at h
        cases h
        exact List.mem_cons_self _ _
      · rw [if_neg hle] at h
        cases h
        exact List.mem_cons_of_mem _ (ih hl)

theorem heapPop_min {l : List (ℚ × PathNode σ γ)} {m : ℚ × PathNode σ γ}
    {rest : List (ℚ × PathNode σ γ)} (h : heapPop l = some (m, rest)) :
    ∀ e ∈ l, m.1 ≤ e.1 := by
  induction l generalizing m rest with
  | nil => simp [heapPop] at h
  | cons e l ih =>
    simp only [heapPop] at h
    cases hl : heapPop l with
    | none =>
      rw [hl] at h
      dsimp only at h
      cases h
      have : l = [] := (heapPop_none l).1 hl
      subst this
      intro x hx
      rcases List.mem_cons.1 hx with hx | hx
      · exact hx ▸ le_refl _
      · cases hx
    | some p =>
      obtain ⟨m0, rest0⟩ := p
      rw [hl] at h
      dsimp only at h
      by_cases hle : e.1 ≤ m0.1
      · rw [if_pos hle] at h
        cases h
        intro x hx
        rcases List.mem_cons.1 hx with hx | hx
        · exact hx ▸ le_refl _
        · exact le_trans hle (ih hl x hx)
      · rw [if_neg hle] at h
        cases h
        intro x hx
        rcases List.mem_cons.1 hx with hx | hx
        · exact hx ▸ le_of_lt (lt_of_not_le hle)
        · exact ih hl x hx

theorem heapPop_mem_rest {l : List (ℚ × PathNode σ γ)} {m : ℚ × PathNode σ γ}
    {rest : List (ℚ × PathNode σ γ)} (h : heapPop l = some (m, rest)) :
    ∀ e ∈ l, e = m ∨ e ∈ rest := by
  induction l generalizing m rest with
  | nil => simp [heapPop] at h
  | cons e l ih =>
    simp only [heapPop] at h
    cases hl : heapPop l with
    | none =>
      rw [hl] at h
      dsimp only at h
      cases h
      have : l = [] := (heapPop_none l).1 hl
      subst this
      intro x hx
      rcases List.mem_cons.1 hx with hx | hx
      · exact Or.inl hx
      · cases hx
    | some p =>
      obtain ⟨m0, rest0⟩ := p
      rw [hl] at h
      dsimp only at h
      by_cases hle : e.1 ≤ m0.1
      · rw [if_pos hle] at h
        cases h
        intro x hx
        rcases List.mem_cons.1 hx with hx | hx
        · exact Or.inl hx
        · exact Or.inr hx
      · rw [if_neg hle] at h
        cases h
        intro x hx
        rcases List.mem_cons.1 hx with hx | hx
        · exact Or.inr (hx ▸ List.mem_cons_self _ _)
        · rcases ih hl x hx with hx' | hx'
          · exact Or.inl hx'
          · exact Or.inr (List.mem_cons_of_mem _ hx')

theorem heapPop_rest_subset {l : List (ℚ × PathNode σ γ)} {m : ℚ × PathNode σ γ}
    {rest : List (ℚ × PathNode σ γ)} (h : heapPop l = some (m, rest)) :
    ∀ e ∈ rest, e ∈ l := by
  induction l generalizing m rest with
  | nil => simp [heapPop] at h
  | cons e l ih =>
    simp only [heapPop] at h
    cases hl : heapPop l with
    | none =>
      rw [hl] at h
      dsimp only at h
      cases h
      intro x hx
      cases hx
    | some p =>
      obtain ⟨m0, rest0⟩ := p
      rw [hl] at h
      dsimp only at h
      by_cases hle : e.1 ≤ m0.1
      · rw [if_pos hle] at h
        cases h
        intro x hx
        exact List.mem_cons_of_mem _ hx
      · rw [if_neg hle] at h
        cases h
        intro x hx
        rcases List.mem_cons.1 hx with hx | hx
        · exact hx ▸ List.mem_cons_self _ _
        · exact List.mem_cons_of_mem _ (ih hl x hx)

theorem heapPop_length {l : List (ℚ × PathNode σ γ)} {m : ℚ × PathNode σ γ}
    {rest : List (ℚ × PathNode σ γ)} (h : heapPop l = some (m, rest)) :
    rest.length + 1 = l.length := by
  induction l generalizing m rest with
  | nil => simp [heapPop] at h
  | cons e l ih =>
    simp only [heapPop] at h
    cases hl : heapPop l with
    | none =>
      rw [hl] at h
      dsimp only at h
      cases h
      have : l = [] := (heapPop_none l).1 hl
      subst this
      rfl
    | some p =>
      obtain ⟨m0, rest0⟩ := p
      rw [hl] at h
      dsimp only at h
      by_cases hle : e.1 ≤ m0.1
      · rw [if_pos hle] at h
        cases h
        rfl
      · rw [if_neg hle] at h
        cases h
        have := ih hl
        simp only [List.length_cons]
        omega

/-! ### Dijkstra / A* fold and soundness lemmas -/

theorem dijkstraFold_entries (T : Finset σ) (visited : Finset (Finset σ × Finset σ))
    (node : PathNode σ γ) :
    ∀ (ts : List (Transition σ γ)) (h : List (ℚ × PathNode σ γ))
      (b : List ((Finset σ × Finset σ) × ℚ)),
      ∀ e ∈ (ts.foldl (dijkstraRelax T visited node) (h, b)).1,
        e ∈ h ∨ ∃ t ∈ ts, e = (node.cost + t.path_cost, mkChild T node t) := by
  intro ts
  induction ts with
  | nil =>
    intro h b e he
    exact Or.inl he
  | cons t ts ih =>
    intro h b e he
    rw [List.foldl_cons] at he
    have hstep : ∀ (p : List (ℚ × PathNode σ γ) × List ((Finset σ × Finset σ) × ℚ)),
        dijkstraRelax T visited node p t = p ∨
        dijkstraRelax T visited node p t =
          (p.1 ++ [(node.cost + t.path_cost, mkChild T node t)],
            ((mkChild T node t).key, node.cost + t.path_cost) :: p.2) := by
      intro p
      unfold dijkstraRelax
      by_cases hv : (mkChild T node t).key ∈ visited
      · rw [if_pos hv]
        exact Or.inl rfl
      · rw [if_neg hv]
        cases lookupBest p.2 (mkChild T node t).key with
        | none => exact Or.inr rfl
        | some bb =>
          dsimp only
          by_cases hlt : node.cost + t.path_cost < bb
          · rw [if_pos hlt]
            exact Or.inr rfl
          · rw [if_neg hlt]
            exact Or.inl rfl
    rcases hstep (h, b) with hp | hp <;> rw [hp] at he
    · rcases ih h b e he with he' | ⟨t', ht', he'⟩
      · exact Or.inl he'
      · exact Or.inr ⟨t', List.mem_cons_of_mem _ ht', he'⟩
    · rcases ih _ _ e he with he' | ⟨t', ht', he'⟩
      · rcases List.mem_append.1 he' with he'' | he''
        · exact Or.inl he''
        · rcases List.mem_singleton.1 he'' with rfl
          exact Or.inr ⟨t, List.mem_cons_self _ _, rfl⟩
      · exact Or.inr ⟨t', List.mem_cons_of_mem _ ht', he'⟩

theorem astarFold_entries (T : Finset σ) (visited : Finset (Finset σ × Finset σ))
    (node : PathNode σ γ) :
    ∀ (ts : List (Transition σ γ)) (h : List (ℚ × PathNode σ γ))
      (b : List ((Finset σ × Finset σ) × ℚ)),
      ∀ e ∈ (ts.foldl (astarRelax T visited node) (h, b)).1,
        e ∈ h ∨ ∃ t ∈ ts,
          e = (node.cost + t.path_cost + heuristic (mkChild T node t) T,
            mkChild T node t) := by
  intro ts
  induction ts with
  | nil =>
    intro h b e he
    exact Or.inl he
  | cons t ts ih =>
    intro h b e he
    rw [List.foldl_cons] at he
    have hstep : ∀ (p : List (ℚ × PathNode σ γ) × List ((Finset σ × Finset σ) × ℚ)),
        astarRelax T visited node p t = p ∨
        astarRelax T visited node p t =
          (p.1 ++ [(node.cost + t.path_cost + heuristic (mkChild T node t) T,
              mkChild T node t)],
            ((mkChild T node t).key, node.cost + t.path_cost) :: p.2) := by
      intro p
      unfold astarRelax
      by_cases hv : (mkChild T node t).key ∈ visited
      · rw [if_pos hv]
        exact Or.inl rfl
      · rw [if_neg hv]
        cases lookupBest p.2 (mkChild T node t).key with
        | none => exact Or.inr rfl
        | some bb =>
          dsimp only
          by_cases hlt : node.cost + t.path_cost < bb
          · rw [if_pos hlt]
            exact Or.inr rfl
          · rw [if_neg hlt]
            exact Or.inl rfl
    rcases hstep (h, b) with hp | hp <;> rw [hp] at he
    · rcases ih h b e he with he' | ⟨t', ht', he'⟩
      · exact Or.inl he'
      · exact Or.inr ⟨t', List.mem_cons_of_mem _ ht', he'⟩
    · rcases ih _ _ e he with he' | ⟨t', ht', he'⟩
      · rcases List.mem_append.1 he' with he'' | he''
        · exact Or.inl he''
        · rcases List.mem_singleton.1 he'' with rfl
          exact Or.inr ⟨t, List.mem_cons_self _ _, rfl⟩
      · exact Or.inr ⟨t', List.mem_cons_of_mem _ ht', he'⟩

/-- Dijkstra soundness: any node the loop returns is a good node that has
reached the whole target set. -/
theorem dijkstraLoop_sound (TS : List (Transition σ γ)) (S0 T : Finset σ) :
    ∀ (fuel : ℕ) (heap : List (ℚ × PathNode σ γ)) (v : Finset (Finset σ × Finset σ))
      (b : List ((Finset σ × Finset σ) × ℚ)),
      (∀ e ∈ heap, GoodNode TS S0 T e.2) →
      ∀ g, dijkstraLoop TS T fuel heap v b = some g →
        GoodNode TS S0 T g ∧ g.targets_reached = T := by
  intro fuel
  induction fuel with
  | zero =>
    intro heap v b _ g hg
    simp [dijkstraLoop] at hg
  | succ fuel ih =>
    intro heap v b hheap g hg
    rw [dijkstraLoop] at hg
    cases hpop : heapPop heap with
    | none =>
      rw [hpop] at hg
      dsimp only at hg
      cases hg
    | some p =>
      obtain ⟨⟨c, node⟩, restHeap⟩ := p
      rw [hpop] at hg
      dsimp only at hg
      have hnode : GoodNode TS S0 T node := hheap _ (heapPop_mem hpop)
      have hrest : ∀ e ∈ restHeap, GoodNode TS S0 T e.2 := fun e he =>
        hheap e (heapPop_rest_subset hpop e he)
      by_cases hv : node.key ∈ v
      · rw [if_pos hv] at hg
        exact ih restHeap v b hrest g hg
      · rw [if_neg hv] at hg
        by_cases hgoal : node.targets_reached = T
        · rw [if_pos hgoal] at hg
          cases hg
          exact ⟨hnode, hgoal⟩
        · rw [if_neg hgoal] at hg
          refine ih _ _ _ ?_ g hg
          intro e he
          rcases dijkstraFold_entries T (insert node.key v) node
              (get_available_transitions TS node.active_states) restHeap b e he with
            he' | ⟨t, ht, he'⟩
          · exact hrest e he'
          · obtain ⟨htTS, htf⟩ := (available_iff TS node.active_states t).1 ht
            rw [he']
            exact GoodNode_child hnode htTS htf

/-- A* soundness: any node the loop returns is a good node that has
reached the whole target set. -/
theorem astarLoop_sound (TS : List (Transition σ γ)) (S0 T : Finset σ) :
    ∀ (fuel : ℕ) (heap : List (ℚ × PathNode σ γ)) (v : Finset (Finset σ × Finset σ))
      (b : List ((Finset σ × Finset σ) × ℚ)),
      (∀ e ∈ heap, GoodNode TS S0 T e.2) →
      ∀ g, astarLoop TS T fuel heap v b = some g →
        GoodNode TS S0 T g ∧ g.targets_reached = T := by
  intro fuel
  induction fuel with
  | zero =>
    intro heap v b _ g hg
    simp [astarLoop] at hg
  | succ fuel ih =>
    intro heap v b hheap g hg
    rw [astarLoop] at hg
    cases hpop : heapPop heap with
    | none =>
      rw [hpop] at hg
      dsimp only at hg
      cases hg
    | some p =>
      obtain ⟨⟨c, node⟩, restHeap⟩ := p
      rw [hpop] at hg
      dsimp only at hg
      have hnode : GoodNode TS S0 T node := hheap _ (heapPop_mem hpop)
      have hrest : ∀ e ∈ restHeap, GoodNode TS S0 T e.2 := fun e he =>
        hheap e (heapPop_rest_subset hpop e he)
      by_cases hv : node.key ∈ v
      · rw [if_pos hv] at hg
        exact ih restHeap v b hrest g hg
      · rw [if_neg hv] at hg
        by_cases hgoal : node.targets_reached = T
        · rw [if_pos hgoal] at hg
          cases hg
          exact ⟨hnode, hgoal⟩
        · rw [if_neg hgoal] at hg
          refine ih _ _ _ ?_ g hg
          intro e he
          rcases astarFold_entries T (insert node.key v) node
              (get_available_transitions TS node.active_states) restHeap b e he with
            he' | ⟨t, ht, he'⟩
          · exact hrest e he'
          · obtain ⟨htTS, htf⟩ := (available_iff TS node.active_states t).1 ht
            rw [he']
            exact GoodNode_child hnode htTS htf

/-- **C8** (path absence): when no covering transition sequence from the
start configuration exists, `find_path_to_all` returns `none` for every
strategy (the embedding is a total function, so no exception can
escape). -/
theorem path_absence {σ γ : Type} [DecidableEq σ] [DecidableEq γ]
    (TS : List (Transition σ γ)) (S0 T : Finset σ)
    (h : ¬∃ s, Covering TS S0 T s) (strategy : SearchStrategy) :
    find_path_to_all TS strategy S0 T = none := by
  have hne : ¬T = ∅ := by
    rintro rfl
    exact h ⟨[], rfl, by simp⟩
  have hns : ¬T ⊆ S0 := by
    intro hsub
    exact h ⟨[], rfl, hsub⟩
  unfold find_path_to_all
  rw [if_neg hne, if_neg hns]
  cases strategy with
  | BFS =>
    unfold bfs_search
    dsimp only
    cases hloop : bfsLoop TS T (searchFuel TS S0 T)
        [PathNode.root S0 (T ∩ S0)] {(PathNode.root S0 (T ∩ S0) : PathNode σ γ).key} with
    | none => simp [hloop]
    | some g =>
      exfalso
      obtain ⟨hgood, hreach⟩ := bfsLoop_sound TS S0 T _ _ _
        (by
          intro n hn
          rcases List.mem_singleton.1 hn with rfl
          exact GoodNode_root TS S0 T) g hloop
      exact h ⟨g.chain, hgood.covering hreach⟩
  | DIJKSTRA =>
    unfold dijkstra_search
    dsimp only
    cases hloop : dijkstraLoop TS T (searchFuel TS S0 T)
        [(0, PathNode.root S0 (T ∩ S0))] ∅
        [((PathNode.root S0 (T ∩ S0) : PathNode σ γ).key, 0)] with
    | none => simp [hloop]
    | some g =>
      exfalso
      obtain ⟨hgood, hreach⟩ := dijkstraLoop_sound TS S0 T _ _ _ _
        (by
          intro e he
          rcases List.mem_singleton.1 he with rfl
          exact GoodNode_root TS S0 T) g hloop
      exact h ⟨g.chain, hgood.covering hreach⟩
  | A_STAR =>
    unfold astar_search
    dsimp only
    cases hloop : astarLoop TS T (searchFuel TS S0 T)
        [(heuristic (PathNode.root S0 (T ∩ S0)) T, PathNode.root S0 (T ∩ S0))] ∅
        [((PathNode.root S0 (T ∩ S0) : PathNode σ γ).key, 0)] with
    | none => simp [hloop]
    | some g =>
      exfalso
      obtain ⟨hgood, hreach⟩ := astarLoop_sound TS S0 T _ _ _ _
        (by
          intro e he
          rcases List.mem_singleton.1 he with rfl
          exact GoodNode_root TS S0 T) g hloop
      exact h ⟨g.chain, hgood.covering hreach⟩

/-- **C8 witness**: a system with no transitions cannot cover target
`{1}` from `{0}`, and every strategy returns `none`. -/
theorem path_absence_witness :
    find_path_to_all ([] : List (Transition ℕ ℕ)) .BFS {0} {1} = none
    ∧ find_path_to_all ([] : List (Transition ℕ ℕ)) .DIJKSTRA {0} {1} = none
    ∧ find_path_to_all ([] : List (Transition ℕ ℕ)) .A_STAR {0} {1} = none := by
  have hno : ¬∃ s, Covering ([] : List (Transition ℕ ℕ)) {0} {1} s := by
    rintro ⟨s, hs⟩
    cases s with
    | nil =>
      have := hs.2
      simp [unionVisited] at this
    | cons t rest =>
      have := hs.1
      rw [validSeqB_cons] at this
      simp at this
  exact ⟨path_absence _ _ _ hno .BFS, path_absence _ _ _ hno .DIJKSTRA,
    path_absence _ _ _ hno .A_STAR⟩

/-! ### GoodTree lemmas -/

theorem GoodTree_root (TS : List (Transition σ γ)) (S0 T : Finset σ) :
    GoodTree TS S0 T (.root S0 (T ∩ S0)) :=
  ⟨rfl, rfl⟩

theorem GoodTree_child {TS : List (Transition σ γ)} {S0 T : Finset σ} {n : PathNode σ γ}
    {t : Transition σ γ} (h : GoodTree TS S0 T n) (ht : t ∈ TS)
    (hf : t.can_execute_from n.active_states = true) :
    GoodTree TS S0 T (mkChild T n t) :=
  ⟨h, ht, hf, rfl, rfl, rfl, rfl⟩

theorem GoodTree.toGoodNode {TS : List (Transition σ γ)} {S0 T : Finset σ} :
    ∀ {n : PathNode σ γ}, GoodTree TS S0 T n → GoodNode TS S0 T n := by
  intro n
  induction n with
  | root a r =>
    rintro ⟨ha, hr⟩
    subst ha
    subst hr
    exact GoodNode_root TS _ T
  | child a r t p c d ih =>
    rintro ⟨hp, ht, hf, rfl, rfl, rfl, rfl⟩
    exact GoodNode_child (ih hp) ht hf

theorem configsAlong_append_singleton (A : Finset σ) :
    ∀ (s : List (Transition σ γ)) (t : Transition σ γ),
      configsAlong A (s ++ [t]) =
        configsAlong A s ++ [apply_transition (applySeq A s) t] := by
  intro s
  induction s generalizing A with
  | nil => intro t; rfl
  | cons u s ih =>
    intro t
    rw [List.cons_append]
    unfold configsAlong
    rw [ih (apply_transition A u) t, applySeq_cons]
    rfl

/-- The active-state snapshots collected by `_reconstruct_path` from a
hereditarily good node are exactly the configurations along its chain. -/
theorem GoodTree.nodeList_active {TS : List (Transition σ γ)} {S0 T : Finset σ} :
    ∀ {n : PathNode σ γ}, GoodTree TS S0 T n →
      n.nodeList.map PathNode.active_states = configsAlong S0 n.chain := by
  intro n
  induction n with
  | root a r =>
    rintro ⟨rfl, rfl⟩
    rfl
  | child a r t p c d ih =>
    rintro ⟨hp, ht, hf, rfl, hr, hc, hd⟩
    show (p.nodeList ++ [PathNode.child _ _ t p c d]).map PathNode.active_states =
      configsAlong S0 (p.chain ++ [t])
    rw [List.map_append, ih hp, configsAlong_append_singleton]
    have hact : p.active_states = applySeq S0 p.chain := (GoodTree.toGoodNode hp).2.1
    rw [← hact]
    rfl

theorem foldl_union_configsAlong :
    ∀ (s : List (Transition σ γ)) (A X : Finset σ),
      (configsAlong A s).foldl (fun acc c => acc ∪ c) X = X ∪ unionVisited A s := by
  intro s
  induction s with
  | nil =>
    intro A X
    rfl
  | cons t s ih =>
    intro A X
    unfold configsAlong unionVisited
    rw [List.foldl_cons, ih (apply_transition A t) (X ∪ A), Finset.union_assoc]

/-! ### Sequence surgery: prefixes, cuts, and good references -/

theorem validSeqB_mem (TS : List (Transition σ γ)) :
    ∀ (s : List (Transition σ γ)) (A : Finset σ), validSeqB TS A s = true →
      ∀ t ∈ s, t ∈ TS := by
  intro s
  induction s with
  | nil => intro A _ t ht; cases ht
  | cons u s ih =>
    intro A h t ht
    rw [validSeqB_cons] at h
    simp only [Bool.and_eq_true, decide_eq_true_eq] at h
    rcases List.mem_cons.1 ht with ht | ht
    · exact ht ▸ h.1.1
    · exact ih (apply_transition A u) h.2 t ht

theorem validSeqB_take (TS : List (Transition σ γ)) {A : Finset σ}
    {s : List (Transition σ γ)} (h : validSeqB TS A s = true) (i : ℕ) :
    validSeqB TS A (s.take i) = true := by
  have := List.take_append_drop i s
  rw [← this, validSeqB_append, Bool.and_eq_true] at h
  exact h.1

theorem validSeqB_drop (TS : List (Transition σ γ)) {A : Finset σ}
    {s : List (Transition σ γ)} (h : validSeqB TS A s = true) (i : ℕ) :
    validSeqB TS (applySeq A (s.take i)) (s.drop i) = true := by
  have := List.take_append_drop i s
  rw [← this, validSeqB_append, Bool.and_eq_true] at h
  exact h.2

theorem seqCost_nonneg {s : List (Transition σ γ)}
    (h : ∀ t ∈ s, 0 ≤ t.path_cost) : 0 ≤ seqCost s := by
  apply List.sum_nonneg
  intro x hx
  obtain ⟨t, ht, rfl⟩ := List.mem_map.1 hx
  exact h t ht

theorem seqCost_take_le {s : List (Transition σ γ)}
    (h : ∀ t ∈ s, 0 ≤ t.path_cost) (i : ℕ) : seqCost (s.take i) ≤ seqCost s := by
  conv_rhs => rw [← List.take_append_drop i s]
  rw [seqCost_append]
  have : 0 ≤ seqCost (s.drop i) :=
    seqCost_nonneg fun t ht => h t ((List.drop_sublist i s).subset ht)
  linarith

theorem seqCost_take_mono {s : List (Transition σ γ)}
    (h : ∀ t ∈ s, 0 ≤ t.path_cost) {i j : ℕ} (hij : i ≤ j) :
    seqCost (s.take i) ≤ seqCost (s.take j) := by
  have h1 : (s.take j).take i = s.take i := by
    rw [List.take_take, min_eq_left hij]
  have h2 : ∀ t ∈ s.take j, 0 ≤ t.path_cost :=
    fun t ht => h t ((List.take_sublist j s).subset ht)
  calc seqCost (s.take i) = seqCost ((s.take j).take i) := by rw [h1]
    _ ≤ seqCost (s.take j) := seqCost_take_le h2 i

theorem traceKey_zero (T S0 : Finset σ) (r : List (Transition σ γ)) :
    traceKey T S0 r 0 = (S0, T ∩ S0) := rfl

theorem traceKey_length (T S0 : Finset σ) (r : List (Transition σ γ)) :
    traceKey T S0 r r.length = (applySeq S0 r, reachedAfter T S0 (T ∩ S0) r) := by
  unfold traceKey
  rw [List.take_length]

theorem take_succ_get {r : List (Transition σ γ)} {j : ℕ} (hj : j < r.length) :
    r.take (j + 1) = r.take j ++ [r.get ⟨j, hj⟩] := by
  rw [← List.take_concat_get r j hj, List.concat_eq_append]
  rfl

theorem traceKey_succ (T S0 : Finset σ) {r : List (Transition σ γ)} {j : ℕ}
    (hj : j < r.length) :
    traceKey T S0 r (j + 1) =
      (apply_transition (traceKey T S0 r j).1 (r.get ⟨j, hj⟩),
        (traceKey T S0 r j).2 ∪
          T ∩ apply_transition (traceKey T S0 r j).1 (r.get ⟨j, hj⟩)) := by
  unfold traceKey
  rw [take_succ_get hj, applySeq_append, reachedAfter_append]
  rfl

theorem seqCost_take_succ {r : List (Transition σ γ)} {j : ℕ} (hj : j < r.length) :
    seqCost (r.take (j + 1)) = seqCost (r.take j) + (r.get ⟨j, hj⟩).path_cost := by
  rw [take_succ_get hj, seqCost_append]
  simp [seqCost]

theorem step_valid (TS : List (Transition σ γ)) {S0 T : Finset σ}
    {r : List (Transition σ γ)} (hval : validSeqB TS S0 r = true) {j : ℕ}
    (hj : j < r.length) :
    r.get ⟨j, hj⟩ ∈ TS ∧
      (r.get ⟨j, hj⟩).can_execute_from (traceKey T S0 r j).1 = true := by
  have hdrop := validSeqB_drop TS hval j
  rw [List.drop_eq_getElem_cons hj] at hdrop
  rw [validSeqB_cons] at hdrop
  simp only [Bool.and_eq_true, decide_eq_true_eq] at hdrop
  exact ⟨hdrop.1.1, hdrop.1.2⟩

theorem reachedAfter_take_drop (T S0 : Finset σ) (r : List (Transition σ γ)) (j : ℕ) :
    reachedAfter T S0 (T ∩ S0) r =
      reachedAfter T (applySeq S0 (r.take j)) (reachedAfter T S0 (T ∩ S0) (r.take j))
        (r.drop j) := by
  conv_lhs => rw [← List.take_append_drop j r]
  rw [reachedAfter_append]

/-- Cutting a key-repeating loop out of a covering sequence yields a
strictly shorter covering sequence of no greater cost. -/
theorem cut_covering {TS : List (Transition σ γ)} {S0 T : Finset σ}
    {r : List (Transition σ γ)} (hcov : Covering TS S0 T r) {i j : ℕ}
    (hij : i < j) (hj : j ≤ r.length)
    (heq : traceKey T S0 r i = traceKey T S0 r j) :
    Covering TS S0 T (r.take i ++ r.drop j)
    ∧ (r.take i ++ r.drop j).length < r.length
    ∧ ((∀ t ∈ TS, 0 ≤ t.path_cost) → seqCost (r.take i ++ r.drop j) ≤ seqCost r) := by
  obtain ⟨hval, hreach⟩ := (covering_iff TS S0 T r).1 hcov
  have hA : applySeq S0 (r.take i) = applySeq S0 (r.take j) := congrArg Prod.fst heq
  have hR : reachedAfter T S0 (T ∩ S0) (r.take i) =
      reachedAfter T S0 (T ∩ S0) (r.take j) := congrArg Prod.snd heq
  refine ⟨(covering_iff TS S0 T _).2 ⟨?_, ?_⟩, ?_, ?_⟩
  · rw [validSeqB_append, Bool.and_eq_true]
    refine ⟨validSeqB_take TS hval i, ?_⟩
    rw [hA]
    exact validSeqB_drop TS hval j
  · rw [reachedAfter_append, hA, hR, ← reachedAfter_take_drop]
    exact hreach
  · rw [List.length_append, List.length_take, List.length_drop]
    omega
  · intro hnn
    have hmem : ∀ t ∈ r, 0 ≤ t.path_cost := fun t ht =>
      hnn t (validSeqB_mem TS r S0 hval t ht)
    rw [seqCost_append]
    have h1 : seqCost (r.take i) ≤ seqCost (r.take j) := seqCost_take_mono hmem (le_of_lt hij)
    have h2 : seqCost r = seqCost (r.take j) + seqCost (r.drop j) := by
      conv_lhs => rw [← List.take_append_drop j r, seqCost_append]
    linarith

/-- Every covering sequence can be replaced by one of no greater length
(and, for non-negative costs, no greater cost) whose search keys are
pairwise distinct and whose `targets_reached` value equals the full
target set only at the very end. -/
theorem exists_good_ref {TS : List (Transition σ γ)} {S0 T : Finset σ} :
    ∀ (n : ℕ) (r : List (Transition σ γ)), r.length ≤ n → Covering TS S0 T r →
      ∃ q, Covering TS S0 T q ∧ q.length ≤ r.length ∧
        ((∀ t ∈ TS, 0 ≤ t.path_cost) → seqCost q ≤ seqCost r) ∧
        (∀ i j, i < j → j ≤ q.length → traceKey T S0 q i ≠ traceKey T S0 q j) ∧
        (∀ j, j < q.length → reachedAfter T S0 (T ∩ S0) (q.take j) ≠ T) := by
  intro n
  induction n with
  | zero =>
    intro r hlen hcov
    refine ⟨r, hcov, le_refl _, fun _ => le_refl _, ?_, ?_⟩
    · intro i j hij hjle
      exact absurd (lt_of_lt_of_le hij (le_trans hjle hlen)) (Nat.not_lt_zero i)
    · intro j hj
      exact absurd (lt_of_lt_of_le hj hlen) (Nat.not_lt_zero j)
  | succ n ih =>
    intro r hlen hcov
    by_cases hdup : ∃ i j, i < j ∧ j ≤ r.length ∧ traceKey T S0 r i = traceKey T S0 r j
    · obtain ⟨i, j, hij, hjle, heq⟩ := hdup
      obtain ⟨hcov', hlt, hcost⟩ := cut_covering hcov hij hjle heq
      obtain ⟨q, hq1, hq2, hq3, hq4, hq5⟩ := ih (r.take i ++ r.drop j) (by omega) hcov'
      refine ⟨q, hq1, by omega, ?_, hq4, hq5⟩
      intro hnn
      exact le_trans (hq3 hnn) (hcost hnn)
    · by_cases hproper : ∃ jj, jj < r.length ∧ reachedAfter T S0 (T ∩ S0) (r.take jj) = T
      · obtain ⟨jj, hjj, hjr⟩ := hproper
        obtain ⟨hval, -⟩ := (covering_iff TS S0 T r).1 hcov
        have hcovp : Covering TS S0 T (r.take jj) :=
          (covering_iff TS S0 T _).2 ⟨validSeqB_take TS hval jj, hjr⟩
        obtain ⟨q, hq1, hq2, hq3, hq4, hq5⟩ := ih (r.take jj)
          (by rw [List.length_take]; omega) hcovp
        have hlenjj : (r.take jj).length ≤ r.length := by
          rw [List.length_take]; omega
        refine ⟨q, hq1, le_trans hq2 hlenjj, ?_, hq4, hq5⟩
        intro hnn
        have hmem : ∀ t ∈ r, 0 ≤ t.path_cost := fun t ht =>
          hnn t (validSeqB_mem TS r S0 hval t ht)
        exact le_trans (hq3 hnn) (seqCost_take_le hmem jj)
      · push_neg at hdup
        push_neg at hproper
        exact ⟨r, hcov, le_refl _, fun _ => le_refl _, hdup, hproper⟩

/-! ### Universe membership -/

theorem subset_foldl_union (f : Transition σ γ → Finset σ) :
    ∀ (l : List (Transition σ γ)) (A : Finset σ),
      A ⊆ l.foldl (fun acc t => acc ∪ f t) A := by
  intro l
  induction l with
  | nil => intro A; exact Finset.Subset.refl A
  | cons t l ih =>
    intro A
    rw [List.foldl_cons]
    exact Finset.Subset.trans Finset.subset_union_left (ih (A ∪ f t))

theorem mem_foldl_union (f : Transition σ γ → Finset σ) :
    ∀ (l : List (Transition σ γ)) (A : Finset σ) (t : Transition σ γ), t ∈ l →
      f t ⊆ l.foldl (fun acc t => acc ∪ f t) A := by
  intro l
  induction l with
  | nil => intro A t ht; cases ht
  | cons u l ih =>
    intro A t ht
    rw [List.foldl_cons]
    rcases List.mem_cons.1 ht with ht | ht
    · subst ht
      exact Finset.Subset.trans Finset.subset_union_right (subset_foldl_union f l (A ∪ f t))
    · exact ih (A ∪ f u) t ht

theorem subset_stateUniverse (TS : List (Transition σ γ)) (S0 : Finset σ) :
    S0 ⊆ stateUniverse TS S0 :=
  subset_foldl_union _ TS S0

theorem activate_subset_stateUniverse {TS : List (Transition σ γ)} (S0 : Finset σ)
    {t : Transition σ γ} (ht : t ∈ TS) :
    t.get_all_states_to_activate ⊆ stateUniverse TS S0 :=
  mem_foldl_union _ TS S0 t ht

theorem apply_subset_stateUniverse {TS : List (Transition σ γ)} {S0 A : Finset σ}
    (hA : A ⊆ stateUniverse TS S0) {t : Transition σ γ} (ht : t ∈ TS) :
    apply_transition A t ⊆ stateUniverse TS S0 := by
  unfold apply_transition
  exact Finset.union_subset
    (Finset.Subset.trans (Finset.sdiff_subset) hA)
    (activate_subset_stateUniverse S0 ht)

theorem applySeq_subset_stateUniverse (TS : List (Transition σ γ)) (S0 : Finset σ) :
    ∀ (s : List (Transition σ γ)) (A : Finset σ), validSeqB TS A s = true →
      A ⊆ stateUniverse TS S0 → applySeq A s ⊆ stateUniverse TS S0 := by
  intro s
  induction s with
  | nil => intro A _ hA; exact hA
  | cons t s ih =>
    intro A hval hA
    rw [validSeqB_cons] at hval
    simp only [Bool.and_eq_true, decide_eq_true_eq] at hval
    rw [applySeq_cons]
    exact ih (apply_transition A t) hval.2 (apply_subset_stateUniverse hA hval.1.1)

theorem reachedAfter_subset_target (T : Finset σ) :
    ∀ (s : List (Transition σ γ)) (A R : Finset σ), R ⊆ T →
      reachedAfter T A R s ⊆ T := by
  intro s
  induction s with
  | nil => intro A R h; exact h
  | cons t s ih =>
    intro A R h
    rw [reachedAfter_cons]
    exact ih _ _ (Finset.union_subset h (Finset.inter_subset_left))

theorem GoodNode.key_mem {TS : List (Transition σ γ)} {S0 T : Finset σ}
    {n : PathNode σ γ} (h : GoodNode TS S0 T n) :
    n.key ∈ keyUniverse TS S0 T := by
  unfold keyUniverse PathNode.key
  rw [Finset.mem_product]
  constructor
  · rw [Finset.mem_powerset, h.2.1]
    exact applySeq_subset_stateUniverse TS S0 n.chain S0 h.1 (subset_stateUniverse TS S0)
  · rw [Finset.mem_powerset, h.2.2.1]
    exact reachedAfter_subset_target T n.chain S0 (T ∩ S0) Finset.inter_subset_left

/-! ### BFS optimality -/

/-- Main BFS loop lemma: with the queue invariant, a progress witness
along a key-distinct proper-ended covering reference `r`, and enough
fuel, the loop returns a hereditarily good goal node whose depth is at
most `r.length`. -/
theorem bfsLoop_optimal {TS : List (Transition σ γ)} {S0 T : Finset σ}
    {r : List (Transition σ γ)}
    (hval : validSeqB TS S0 r = true)
    (hend : reachedAfter T S0 (T ∩ S0) r = T) :
    ∀ (fuel : ℕ) (q : List (PathNode σ γ)) (v : Finset (Finset σ × Finset σ)),
      BfsInv TS S0 T q v → BfsWitness TS S0 T r q v →
      q.length + ((keyUniverse TS S0 T) \ v).card ≤ fuel →
      ∃ g, bfsLoop TS T fuel q v = some g ∧ GoodTree TS S0 T g ∧
        g.targets_reached = T ∧ g.depth ≤ r.length := by
  intro fuel
  induction fuel with
  | zero =>
    intro q v _ hwit hfuel
    obtain ⟨j, hj, ⟨n, hn, -, -⟩, -⟩ := hwit
    have := List.length_pos_of_mem hn
    omega
  | succ fuel ih =>
    intro q v hinv hwit hfuel
    obtain ⟨j, hjL, ⟨w, hwmem, hwkey, hwdepth⟩, hfresh⟩ := hwit
    cases q with
    | nil => cases hwmem
    | cons node rest =>
      have hheadle : ∀ m ∈ rest, node.depth ≤ m.depth :=
        (List.pairwise_cons.1 hinv.sorted).1
      have hnodew : node.depth ≤ w.depth := by
        rcases List.mem_cons.1 hwmem with hw | hw
        · rw [hw]
        · exact hheadle w hw
      have hnodej : node.depth ≤ j := le_trans hnodew hwdepth
      by_cases hgoal : node.targets_reached = T
      · refine ⟨node, ?_, hinv.good node (List.mem_cons_self _ _), hgoal,
          le_trans hnodej hjL⟩
        simp only [bfsLoop]
        rw [if_pos hgoal]
      · obtain ⟨sub, hs1, hs2, hs3, hs4, hs5, hs6⟩ :=
          bfsFold_spec T node (get_available_transitions TS node.active_states) rest v
        set step := (get_available_transitions TS node.active_states).foldl
          (bfsEnqueue T node) (rest, v) with hstepdef
        have hsubdepth : ∀ n ∈ sub, n.depth = node.depth + 1 := by
          intro n hn
          obtain ⟨t, -, rfl⟩ := hs3 n hn
          rfl
        have hsubgood : ∀ n ∈ sub, GoodTree TS S0 T n := by
          intro n hn
          obtain ⟨t, ht, rfl⟩ := hs3 n hn
          obtain ⟨htTS, htf⟩ := (available_iff TS node.active_states t).1 ht
          exact GoodTree_child (hinv.good node (List.mem_cons_self _ _)) htTS htf
        have hinv' : BfsInv TS S0 T step.1 step.2 := by
          refine ⟨?_, ?_, ?_, ?_, ?_⟩
          · rw [hs1]
            intro n hn
            rcases List.mem_append.1 hn with hn | hn
            · exact hinv.good n (List.mem_cons_of_mem _ hn)
            · exact hsubgood n hn
          · rw [hs1, hs2]
            intro n hn
            rcases List.mem_append.1 hn with hn | hn
            · exact Finset.mem_union_left _ (hinv.keys n (List.mem_cons_of_mem _ hn))
            · refine Finset.mem_union_right _ ?_
              rw [List.mem_toFinset]
              exact List.mem_map_of_mem _ hn
          · rw [hs2]
            refine Finset.union_subset hinv.univ ?_
            intro k hk
            rw [List.mem_toFinset] at hk
            obtain ⟨n, hn, rfl⟩ := List.mem_map.1 hk
            exact ((hsubgood n hn).toGoodNode).key_mem
          · rw [hs1, List.pairwise_append]
            refine ⟨(List.pairwise_cons.1 hinv.sorted).2, ?_, ?_⟩
            · refine List.pairwise_of_forall_mem_list ?_
              intro a ha b hb
              rw [hsubdepth a ha, hsubdepth b hb]
            · intro a ha b hb
              have h1 : a.depth ≤ node.depth + 1 :=
                hinv.twoLevel a (List.mem_cons_of_mem _ ha) node (List.mem_cons_self _ _)
              rw [hsubdepth b hb]
              exact h1
          · rw [hs1]
            intro n hn m hm
            rcases List.mem_append.1 hn with hn | hn <;>
              rcases List.mem_append.1 hm with hm | hm
            · exact hinv.twoLevel n (List.mem_cons_of_mem _ hn) m (List.mem_cons_of_mem _ hm)
            · have h1 : n.depth ≤ node.depth + 1 :=
                hinv.twoLevel n (List.mem_cons_of_mem _ hn) node (List.mem_cons_self _ _)
              rw [hsubdepth m hm]
              omega
            · have h1 : node.depth ≤ m.depth := hheadle m hm
              rw [hsubdepth n hn]
              omega
            · rw [hsubdepth n hn, hsubdepth m hm]
              omega
        classical
        set P : ℕ → Prop := fun m => m ≤ r.length ∧
          ∃ nn ∈ step.1, nn.key = traceKey T S0 r m ∧ nn.depth ≤ m with hPdef
        have hexP : ∃ m, P m ∧ j ≤ m := by
          rcases List.mem_cons.1 hwmem with hw | hw
          · subst hw
            have hjlt : j < r.length := by
              rcases lt_or_eq_of_le hjL with h | h
              · exact h
              · exfalso
                have hk2 : w.targets_reached =
                    reachedAfter T S0 (T ∩ S0) (r.take j) := congrArg Prod.snd hwkey
                rw [h, List.take_length, hend] at hk2
                exact hgoal hk2
            have hstepv := step_valid TS (T := T) hval hjlt
            have hact : w.active_states = (traceKey T S0 r j).1 := congrArg Prod.fst hwkey
            have hreach2 : w.targets_reached = (traceKey T S0 r j).2 :=
              congrArg Prod.snd hwkey
            have htavail : r.get ⟨j, hjlt⟩ ∈
                get_available_transitions TS w.active_states := by
              rw [available_iff]
              refine ⟨hstepv.1, ?_⟩
              rw [hact]
              exact hstepv.2
            have hchildkey : (mkChild T w (r.get ⟨j, hjlt⟩)).key =
                traceKey T S0 r (j + 1) := by
              rw [traceKey_succ T S0 hjlt, ← hact, ← hreach2]
              rfl
            have hkin := hs4 _ htavail
            rw [hs2] at hkin
            rcases Finset.mem_union.1 hkin with hkin | hkin
            · exfalso
              rw [hchildkey] at hkin
              exact hfresh (j + 1) (by omega) (by omega) hkin
            · rw [List.mem_toFinset] at hkin
              obtain ⟨nn, hnn, hnnkey⟩ := List.mem_map.1 hkin
              refine ⟨j + 1, ⟨by omega, nn, ?_, ?_, ?_⟩, by omega⟩
              · rw [hs1]
                exact List.mem_append_right _ hnn
              · rw [hnnkey, hchildkey]
              · rw [hsubdepth nn hnn]
                omega
          · refine ⟨j, ⟨hjL, w, ?_, hwkey, hwdepth⟩, le_refl j⟩
            rw [hs1]
            exact List.mem_append_left _ hw
        set Sm : Finset ℕ := (Finset.range (r.length + 1)).filter P with hSdef
        have hSne : Sm.Nonempty := by
          obtain ⟨m, hm, -⟩ := hexP
          refine ⟨m, Finset.mem_filter.2 ⟨Finset.mem_range.2 ?_, hm⟩⟩
          have := hm.1
          omega
        have hj'mem := Sm.max'_mem hSne
        set j' := Sm.max' hSne with hj'def
        have hPj' : P j' := (Finset.mem_filter.1 hj'mem).2
        have hj'max : ∀ m, P m → m ≤ j' := by
          intro m hm
          refine Finset.le_max' Sm m ?_
          refine Finset.mem_filter.2 ⟨Finset.mem_range.2 ?_, hm⟩
          have := hm.1
          omega
        have hj'ge : j ≤ j' := by
          obtain ⟨m0, hPm0, hjm0⟩ := hexP
          exact le_trans hjm0 (hj'max m0 hPm0)
        have hwit' : BfsWitness TS S0 T r step.1 step.2 := by
          obtain ⟨hj'L, nn, hnnmem, hnnkey, hnndepth⟩ := hPj'
          refine ⟨j', hj'L, ⟨nn, hnnmem, hnnkey, hnndepth⟩, ?_⟩
          intro m hmj' hmL
          rw [hs2]
          intro hmem
          rcases Finset.mem_union.1 hmem with hmem | hmem
          · exact hfresh m (lt_of_le_of_lt hj'ge hmj') hmL hmem
          · rw [List.mem_toFinset] at hmem
            obtain ⟨nn2, hnn2, hnn2key⟩ := List.mem_map.1 hmem
            have hPm : P m := by
              refine ⟨hmL, nn2, ?_, hnn2key, ?_⟩
              · rw [hs1]
                exact List.mem_append_right _ hnn2
              · rw [hsubdepth nn2 hnn2]
                omega
            exact absurd (hj'max m hPm) (not_le.2 hmj')
        have hfuel' : step.1.length + ((keyUniverse TS S0 T) \ step.2).card ≤ fuel := by
          have hlen1 : step.1.length = rest.length + sub.length := by
            rw [hs1, List.length_append]
          have hsubkeys : (sub.map PathNode.key).toFinset ⊆ (keyUniverse TS S0 T) \ v := by
            intro k hk
            rw [List.mem_toFinset] at hk
            obtain ⟨n, hn, rfl⟩ := List.mem_map.1 hk
            rw [Finset.mem_sdiff]
            exact ⟨((hsubgood n hn).toGoodNode).key_mem, hs6 n hn⟩
          have hcardsub : (sub.map PathNode.key).toFinset.card = sub.length := by
            rw [List.toFinset_card_of_nodup hs5, List.length_map]
          have hsdiff : (keyUniverse TS S0 T) \ step.2 =
              ((keyUniverse TS S0 T) \ v) \ (sub.map PathNode.key).toFinset := by
            rw [hs2]
            ext k
            simp only [Finset.mem_sdiff, Finset.mem_union]
            tauto
          have hcard : ((keyUniverse TS S0 T) \ step.2).card =
              ((keyUniverse TS S0 T) \ v).card - sub.length := by
            rw [hsdiff, Finset.card_sdiff hsubkeys, hcardsub]
          have hge : sub.length ≤ ((keyUniverse TS S0 T) \ v).card := by
            rw [← hcardsub]
            exact Finset.card_le_card hsubkeys
          rw [List.length_cons] at hfuel
          omega
        obtain ⟨g, hgloop, hggood, hgreach, hgdepth⟩ := ih step.1 step.2 hinv' hwit' hfuel'
        refine ⟨g, ?_, hggood, hgreach, hgdepth⟩
        simp only [bfsLoop]
        rw [if_neg hgoal, ← hstepdef]
        exact hgloop

/-! ### Dijkstra fold lemmas -/

theorem lookupBest_cons (k0 : Finset σ × Finset σ) (c0 : ℚ)
    (b : List ((Finset σ × Finset σ) × ℚ)) (K : Finset σ × Finset σ) :
    lookupBest ((k0, c0) :: b) K = if k0 = K then some c0 else lookupBest b K := by
  unfold lookupBest
  by_cases h : k0 = K
  · rw [if_pos h]
    rw [List.find?_cons_of_pos]
    · rfl
    · exact decide_eq_true h
  · rw [if_neg h]
    rw [List.find?_cons_of_neg]
    simp [h]

/-- One relax step either leaves the state unchanged or pushes exactly
the child entry and records its cost. -/
theorem dijkstraRelax_cases (T : Finset σ) (visited : Finset (Finset σ × Finset σ))
    (node : PathNode σ γ)
    (p : List (ℚ × PathNode σ γ) × List ((Finset σ × Finset σ) × ℚ))
    (t : Transition σ γ) :
    dijkstraRelax T visited node p t = p ∨
      ((mkChild T node t).key ∉ visited ∧
        dijkstraRelax T visited node p t =
          (p.1 ++ [(node.cost + t.path_cost, mkChild T node t)],
            ((mkChild T node t).key, node.cost + t.path_cost) :: p.2)) := by
  unfold dijkstraRelax
  by_cases hv : (mkChild T node t).key ∈ visited
  · rw [if_pos hv]
    exact Or.inl rfl
  · rw [if_neg hv]
    cases lookupBest p.2 (mkChild T node t).key with
    | none => exact Or.inr ⟨hv, rfl⟩
    | some bb =>
      dsimp only
      by_cases hlt : node.cost + t.path_cost < bb
      · rw [if_pos hlt]
        exact Or.inr ⟨hv, rfl⟩
      · rw [if_neg hlt]
        exact Or.inl rfl

theorem dijkstraRelax_sup (T : Finset σ) (visited : Finset (Finset σ × Finset σ))
    (node : PathNode σ γ)
    (p : List (ℚ × PathNode σ γ) × List ((Finset σ × Finset σ) × ℚ))
    (t : Transition σ γ) :
    ∀ e ∈ p.1, e ∈ (dijkstraRelax T visited node p t).1 := by
  intro e he
  rcases dijkstraRelax_cases T visited node p t with h | ⟨-, h⟩ <;> rw [h]
  · exact he
  · exact List.mem_append_left _ he

theorem dijkstraFold_sup (T : Finset σ) (visited : Finset (Finset σ × Finset σ))
    (node : PathNode σ γ) :
    ∀ (ts : List (Transition σ γ))
      (p : List (ℚ × PathNode σ γ) × List ((Finset σ × Finset σ) × ℚ)),
      ∀ e ∈ p.1, e ∈ (ts.foldl (dijkstraRelax T visited node) p).1 := by
  intro ts
  induction ts with
  | nil => intro p e he; exact he
  | cons t ts ih =>
    intro p e he
    rw [List.foldl_cons]
    exact ih _ _ (dijkstraRelax_sup T visited node p t e he)

theorem dijkstraFold_append (T : Finset σ) (visited : Finset (Finset σ × Finset σ))
    (node : PathNode σ γ) :
    ∀ (ts : List (Transition σ γ))
      (p : List (ℚ × PathNode σ γ) × List ((Finset σ × Finset σ) × ℚ)),
      ∃ pushed : List (ℚ × PathNode σ γ),
        (ts.foldl (dijkstraRelax T visited node) p).1 = p.1 ++ pushed ∧
        pushed.length ≤ ts.length ∧
        ∀ e ∈ pushed, ∃ t ∈ ts,
          e = (node.cost + t.path_cost, mkChild T node t) ∧
          (mkChild T node t).key ∉ visited := by
  intro ts
  induction ts with
  | nil =>
    intro p
    exact ⟨[], by simp, by simp, by simp⟩
  | cons t ts ih =>
    intro p
    rw [List.foldl_cons]
    rcases dijkstraRelax_cases T visited node p t with h | ⟨hv, h⟩ <;> rw [h]
    · obtain ⟨pushed, h1, h2, h3⟩ := ih p
      refine ⟨pushed, h1, by simpa using Nat.le_succ_of_le h2, ?_⟩
      intro e he
      obtain ⟨t', ht', he'⟩ := h3 e he
      exact ⟨t', List.mem_cons_of_mem _ ht', he'⟩
    · obtain ⟨pushed, h1, h2, h3⟩ := ih
        (p.1 ++ [(node.cost + t.path_cost, mkChild T node t)],
          ((mkChild T node t).key, node.cost + t.path_cost) :: p.2)
      refine ⟨(node.cost + t.path_cost, mkChild T node t) :: pushed, ?_, ?_, ?_⟩
      · rw [h1, List.append_assoc]
        rfl
      · simpa using Nat.succ_le_succ h2
      · intro e he
        rcases List.mem_cons.1 he with he | he
        · exact ⟨t, List.mem_cons_self _ _, he, hv⟩
        · obtain ⟨t', ht', he'⟩ := h3 e he
          exact ⟨t', List.mem_cons_of_mem _ ht', he'⟩

theorem dijkstraRelax_best {T : Finset σ} {visited : Finset (Finset σ × Finset σ)}
    {node : PathNode σ γ}
    {p : List (ℚ × PathNode σ γ) × List ((Finset σ × Finset σ) × ℚ)}
    (hb : BestInv visited p.1 p.2) (t : Transition σ γ) :
    BestInv visited (dijkstraRelax T visited node p t).1
      (dijkstraRelax T visited node p t).2 := by
  rcases dijkstraRelax_cases T visited node p t with h | ⟨hv, h⟩ <;> rw [h]
  · exact hb
  · intro K bb hK hlook
    dsimp only at hlook ⊢
    rw [lookupBest_cons] at hlook
    by_cases hk : (mkChild T node t).key = K
    · rw [if_pos hk] at hlook
      cases hlook
      refine ⟨(node.cost + t.path_cost, mkChild T node t), ?_, hk, le_refl _⟩
      exact List.mem_append_right _ (List.mem_singleton.2 rfl)
    · rw [if_neg hk] at hlook
      obtain ⟨e, he, hek, hec⟩ := hb K bb hK hlook
      exact ⟨e, List.mem_append_left _ he, hek, hec⟩

theorem dijkstraFold_best {T : Finset σ} {visited : Finset (Finset σ × Finset σ)}
    {node : PathNode σ γ} :
    ∀ (ts : List (Transition σ γ))
      (p : List (ℚ × PathNode σ γ) × List ((Finset σ × Finset σ) × ℚ)),
      BestInv visited p.1 p.2 →
      BestInv visited (ts.foldl (dijkstraRelax T visited node) p).1
        (ts.foldl (dijkstraRelax T visited node) p).2 := by
  intro ts
  induction ts with
  | nil => intro p hb; exact hb
  | cons t ts ih =>
    intro p hb
    rw [List.foldl_cons]
    exact ih _ (dijkstraRelax_best hb t)

theorem dijkstraFold_progress {T : Finset σ} {visited : Finset (Finset σ × Finset σ)}
    {node : PathNode σ γ} :
    ∀ (ts : List (Transition σ γ))
      (p : List (ℚ × PathNode σ γ) × List ((Finset σ × Finset σ) × ℚ)),
      BestInv visited p.1 p.2 →
      ∀ t0 ∈ ts, (mkChild T node t0).key ∉ visited →
        ∃ e ∈ (ts.foldl (dijkstraRelax T visited node) p).1,
          (e : ℚ × PathNode σ γ).2.key = (mkChild T node t0).key ∧
          e.1 ≤ node.cost + t0.path_cost := by
  intro ts
  induction ts with
  | nil => intro p _ t0 ht0; cases ht0
  | cons t ts ih =>
    intro p hb t0 ht0 hkey
    rw [List.foldl_cons]
    rcases List.mem_cons.1 ht0 with ht0 | ht0
    · subst ht0
      -- the step for t0 itself: either it pushes, or best already has a
      -- no-worse entry backed by the heap
      have hstep : ∃ e ∈ (dijkstraRelax T visited node p t0).1,
          (e : ℚ × PathNode σ γ).2.key = (mkChild T node t0).key ∧
          e.1 ≤ node.cost + t0.path_cost := by
        unfold dijkstraRelax
        rw [if_neg hkey]
        cases hlook : lookupBest p.2 (mkChild T node t0).key with
        | none =>
          dsimp only
          refine ⟨(node.cost + t0.path_cost, mkChild T node t0), ?_, rfl, le_refl _⟩
          exact List.mem_append_right _ (List.mem_singleton.2 rfl)
        | some bb =>
          dsimp only
          by_cases hlt : node.cost + t0.path_cost < bb
          · rw [if_pos hlt]
            refine ⟨(node.cost + t0.path_cost, mkChild T node t0), ?_, rfl, le_refl _⟩
            exact List.mem_append_right _ (List.mem_singleton.2 rfl)
          · rw [if_neg hlt]
            obtain ⟨e, he, hek, hec⟩ := hb _ bb hkey hlook
            exact ⟨e, he, hek, le_trans hec (le_of_not_lt hlt)⟩
      obtain ⟨e, he, hek, hec⟩ := hstep
      exact ⟨e, dijkstraFold_sup T visited node ts _ e he, hek, hec⟩
    · exact ih _ (dijkstraRelax_best hb t) t0 ht0 hkey

/-! ### Dijkstra optimality -/

/-- Main Dijkstra loop lemma: with non-negative costs, the loop
invariant, a progress witness along a key-distinct proper-ended covering
reference `r`, and enough fuel, the loop returns a hereditarily good goal
node of cost at most `seqCost r`. -/
theorem dijkstraLoop_optimal {TS : List (Transition σ γ)} {S0 T : Finset σ}
    {r : List (Transition σ γ)}
    (hnn : ∀ t ∈ TS, 0 ≤ t.path_cost)
    (hval : validSeqB TS S0 r = true)
    (hend : reachedAfter T S0 (T ∩ S0) r = T)
    (hkeys : ∀ i j, i < j → j ≤ r.length → traceKey T S0 r i ≠ traceKey T S0 r j) :
    ∀ (fuel : ℕ) (heap : List (ℚ × PathNode σ γ))
      (visited : Finset (Finset σ × Finset σ))
      (best : List ((Finset σ × Finset σ) × ℚ)),
      DijkstraInv TS S0 T heap visited best →
      DijkstraWitness TS S0 T r heap visited →
      heap.length + ((keyUniverse TS S0 T) \ visited).card * (TS.length + 1) ≤ fuel →
      ∃ g, dijkstraLoop TS T fuel heap visited best = some g ∧ GoodTree TS S0 T g ∧
        g.targets_reached = T ∧ g.cost ≤ seqCost r := by
  have hmemnn : ∀ t ∈ r, 0 ≤ t.path_cost := fun t ht =>
    hnn t (validSeqB_mem TS r S0 hval t ht)
  intro fuel
  induction fuel with
  | zero =>
    intro heap visited best _ hwit hfuel
    obtain ⟨j, hj, ⟨e, he, -, -⟩, -⟩ := hwit
    have := List.length_pos_of_mem he
    omega
  | succ fuel ih =>
    intro heap visited best hinv hwit hfuel
    obtain ⟨j, hjL, ⟨ew, hewmem, hewkey, hewcost⟩, hfresh⟩ := hwit
    cases hpop : heapPop heap with
    | none =>
      exfalso
      rw [heapPop_none] at hpop
      rw [hpop] at hewmem
      cases hewmem
    | some pr =>
      obtain ⟨⟨c, node⟩, restHeap⟩ := pr
      have hpopmem : (c, node) ∈ heap := heapPop_mem hpop
      have hpopmin := heapPop_min hpop
      have hcnode : c = node.cost := hinv.entry_cost _ hpopmem
      have hnodegood : GoodTree TS S0 T node := hinv.good _ hpopmem
      have hcle : c ≤ seqCost (r.take j) := le_trans (hpopmin ew hewmem) hewcost
      have hprefix_le : ∀ {i : ℕ}, i ≤ r.length → seqCost (r.take i) ≤ seqCost r := by
        intro i hi
        have h1 := seqCost_take_mono hmemnn hi
        rw [List.take_length] at h1
        exact h1
      by_cases hv : node.key ∈ visited
      · -- lazy-deletion skip
        have hrest_sub := heapPop_rest_subset hpop
        have hewrest : ew ∈ restHeap := by
          rcases heapPop_mem_rest hpop ew hewmem with he' | he'
          · exfalso
            have : node.key = traceKey T S0 r j := by
              rw [← hewkey, he']
            exact hfresh j (le_refl j) hjL (this ▸ hv)
          · exact he'
        have hbest' : BestInv visited restHeap best := by
          intro K bb hK hlook
          obtain ⟨e, he, hek, hec⟩ := hinv.best_inv K bb hK hlook
          rcases heapPop_mem_rest hpop e he with he' | he'
          · exfalso
            rw [he'] at hek
            exact hK (hek ▸ hv)
          · exact ⟨e, he', hek, hec⟩
        have hinv' : DijkstraInv TS S0 T restHeap visited best :=
          ⟨fun e he => hinv.good e (hrest_sub e he),
           fun e he => hinv.entry_cost e (hrest_sub e he), hinv.univ, hbest'⟩
        have hwit' : DijkstraWitness TS S0 T r restHeap visited :=
          ⟨j, hjL, ⟨ew, hewrest, hewkey, hewcost⟩, hfresh⟩
        have hlenrest := heapPop_length hpop
        obtain ⟨g, hgloop, hggood, hgreach, hgcost⟩ :=
          ih restHeap visited best hinv' hwit' (by omega)
        refine ⟨g, ?_, hggood, hgreach, hgcost⟩
        simp only [dijkstraLoop]
        rw [hpop]
        dsimp only
        rw [if_pos hv]
        exact hgloop
      · by_cases hgoal : node.targets_reached = T
        · refine ⟨node, ?_, hnodegood, hgoal, ?_⟩
          · simp only [dijkstraLoop]
            rw [hpop]
            dsimp only
            rw [if_neg hv, if_pos hgoal]
          · rw [← hcnode]
            exact le_trans hcle (hprefix_le hjL)
        · -- explore from the popped node
          obtain ⟨pushed, hp1, hp2, hp3⟩ := dijkstraFold_append T (insert node.key visited)
            node (get_available_transitions TS node.active_states) (restHeap, best)
          set step := (get_available_transitions TS node.active_states).foldl
            (dijkstraRelax T (insert node.key visited) node) (restHeap, best) with hstepdef
          have hrest_sub := heapPop_rest_subset hpop
          have hgood' : ∀ e ∈ step.1, GoodTree TS S0 T (e : ℚ × PathNode σ γ).2 := by
            rw [hp1]
            intro e he
            rcases List.mem_append.1 he with he | he
            · exact hinv.good e (hrest_sub e he)
            · obtain ⟨t, ht, he', -⟩ := hp3 e he
              obtain ⟨htTS, htf⟩ := (available_iff TS node.active_states t).1 ht
              rw [he']
              exact GoodTree_child hnodegood htTS htf
          have hcost' : ∀ e ∈ step.1, (e : ℚ × PathNode σ γ).1 = e.2.cost := by
            rw [hp1]
            intro e he
            rcases List.mem_append.1 he with he | he
            · exact hinv.entry_cost e (hrest_sub e he)
            · obtain ⟨t, -, he', -⟩ := hp3 e he
              rw [he']
              rfl
          have hnodekey_univ : node.key ∈ keyUniverse TS S0 T :=
            (hnodegood.toGoodNode).key_mem
          have huniv' : insert node.key visited ⊆ keyUniverse TS S0 T :=
            Finset.insert_subset hnodekey_univ hinv.univ
          have hbestrest : BestInv (insert node.key visited) restHeap best := by
            intro K bb hK hlook
            have hKv : K ∉ visited := fun h => hK (Finset.mem_insert_of_mem h)
            obtain ⟨e, he, hek, hec⟩ := hinv.best_inv K bb hKv hlook
            rcases heapPop_mem_rest hpop e he with he' | he'
            · exfalso
              rw [he'] at hek
              exact hK (hek ▸ Finset.mem_insert_self _ _)
            · exact ⟨e, he', hek, hec⟩
          have hbest' : BestInv (insert node.key visited) step.1 step.2 :=
            dijkstraFold_best _ _ hbestrest
          have hinv' : DijkstraInv TS S0 T step.1 (insert node.key visited) step.2 :=
            ⟨hgood', hcost', huniv', hbest'⟩
          -- fuel accounting
          have hlenrest := heapPop_length hpop
          have hsteplen : step.1.length ≤ restHeap.length + TS.length := by
            rw [hp1, List.length_append]
            have h1 : (get_available_transitions TS node.active_states).length ≤
                TS.length := List.length_filter_le _ _
            dsimp only
            omega
          have hcard : ((keyUniverse TS S0 T) \ (insert node.key visited)).card + 1 =
              ((keyUniverse TS S0 T) \ visited).card := by
            have h1 : (keyUniverse TS S0 T) \ (insert node.key visited) =
                ((keyUniverse TS S0 T) \ visited).erase node.key := by
              ext k
              simp only [Finset.mem_sdiff, Finset.mem_insert, Finset.mem_erase]
              tauto
            rw [h1, Finset.card_erase_of_mem
              (Finset.mem_sdiff.2 ⟨hnodekey_univ, hv⟩)]
            have h2 : 0 < ((keyUniverse TS S0 T) \ visited).card :=
              Finset.card_pos.2 ⟨node.key, Finset.mem_sdiff.2 ⟨hnodekey_univ, hv⟩⟩
            omega
          have hprod : ((keyUniverse TS S0 T) \ visited).card * (TS.length + 1) =
              ((keyUniverse TS S0 T) \ (insert node.key visited)).card * (TS.length + 1)
                + (TS.length + 1) := by
            rw [← hcard]
            ring
          have hfuel' : step.1.length +
              ((keyUniverse TS S0 T) \ (insert node.key visited)).card * (TS.length + 1)
                ≤ fuel := by
            rw [hprod] at hfuel
            omega
          -- witness maintenance
          have hwit' : DijkstraWitness TS S0 T r step.1 (insert node.key visited) := by
            by_cases hm : ∃ m, m ≤ r.length ∧ traceKey T S0 r m = node.key
            · obtain ⟨m, hmL, hmkey⟩ := hm
              have hmlt : m < r.length := by
                rcases lt_or_eq_of_le hmL with h | h
                · exact h
                · exfalso
                  have h2 : (traceKey T S0 r m).2 = node.targets_reached :=
                    congrArg Prod.snd hmkey
                  rw [h] at h2
                  unfold traceKey at h2
                  rw [List.take_length, hend] at h2
                  exact hgoal h2.symm
              by_cases hjm : j ≤ m
              · -- consume the trace up to m and push key m+1
                have hact : node.active_states = (traceKey T S0 r m).1 :=
                  (congrArg Prod.fst hmkey).symm
                have hreach2 : node.targets_reached = (traceKey T S0 r m).2 :=
                  (congrArg Prod.snd hmkey).symm
                have hstepv := step_valid TS (T := T) hval hmlt
                have htavail : r.get ⟨m, hmlt⟩ ∈
                    get_available_transitions TS node.active_states := by
                  rw [available_iff]
                  refine ⟨hstepv.1, ?_⟩
                  rw [hact]
                  exact hstepv.2
                have hchildkey : (mkChild T node (r.get ⟨m, hmlt⟩)).key =
                    traceKey T S0 r (m + 1) := by
                  rw [traceKey_succ T S0 hmlt, ← hact, ← hreach2]
                  rfl
                have hchildfresh : (mkChild T node (r.get ⟨m, hmlt⟩)).key ∉
                    insert node.key visited := by
                  rw [hchildkey]
                  intro hmem
                  rcases Finset.mem_insert.1 hmem with Heq | Hmem
                  · rw [← hmkey] at Heq
                    exact hkeys m (m + 1) (by omega) (by omega) Heq.symm
                  · exact hfresh (m + 1) (by omega) (by omega) Hmem
                obtain ⟨e, he, hek, hec⟩ := dijkstraFold_progress _ (restHeap, best)
                  hbestrest _ htavail hchildfresh
                have hnodecost : node.cost ≤ seqCost (r.take m) := by
                  rw [← hcnode]
                  exact le_trans hcle (seqCost_take_mono hmemnn hjm)
                have hecost : e.1 ≤ seqCost (r.take (m + 1)) := by
                  rw [seqCost_take_succ hmlt]
                  have := hec
                  linarith
                refine ⟨m + 1, by omega, ⟨e, he, by rw [hek, hchildkey], hecost⟩, ?_⟩
                intro m' hm' hm'L
                intro hmem
                rcases Finset.mem_insert.1 hmem with Heq | Hmem
                · rw [← hmkey] at Heq
                  exact hkeys m m' (by omega) hm'L Heq.symm
                · exact hfresh m' (by omega) hm'L Hmem
              · -- m < j: the witness entry survives the pop
                push_neg at hjm
                have hewrest : ew ∈ restHeap := by
                  rcases heapPop_mem_rest hpop ew hewmem with he' | he'
                  · exfalso
                    have : traceKey T S0 r j = traceKey T S0 r m := by
                      rw [hmkey, ← hewkey, he']
                    exact hkeys m j hjm hjL this.symm
                  · exact he'
                refine ⟨j, hjL,
                  ⟨ew, dijkstraFold_sup _ _ _ _ _ ew hewrest, hewkey, hewcost⟩, ?_⟩
                intro m' hm' hm'L
                intro hmem
                rcases Finset.mem_insert.1 hmem with Heq | Hmem
                · rw [← hmkey] at Heq
                  exact hkeys m m' (by omega) hm'L Heq.symm
                · exact hfresh m' hm' hm'L Hmem
            · -- the popped key is not on the trace: witness survives
              have hewrest : ew ∈ restHeap := by
                rcases heapPop_mem_rest hpop ew hewmem with he' | he'
                · exfalso
                  refine hm ⟨j, hjL, ?_⟩
                  rw [← hewkey, he']
                · exact he'
              refine ⟨j, hjL,
                ⟨ew, dijkstraFold_sup _ _ _ _ _ ew hewrest, hewkey, hewcost⟩, ?_⟩
              intro m' hm' hm'L
              intro hmem
              rcases Finset.mem_insert.1 hmem with Heq | Hmem
              · exact hm ⟨m', hm'L, Heq⟩
              · exact hfresh m' hm' hm'L Hmem
          obtain ⟨g, hgloop, hggood, hgreach, hgcost⟩ :=
            ih step.1 (insert node.key visited) step.2 hinv' hwit' hfuel'
          refine ⟨g, ?_, hggood, hgreach, hgcost⟩
          simp only [dijkstraLoop]
          rw [hpop]
          dsimp only
          rw [if_neg hv, if_neg hgoal, ← hstepdef]
          exact hgloop

/-! ### Search-level optimality -/

theorem bfs_search_optimal_aux {TS : List (Transition σ γ)} {S0 T : Finset σ}
    {s : List (Transition σ γ)} (hcov : Covering TS S0 T s) :
    ∃ g, bfs_search TS S0 T = some (reconstruct_path g T) ∧ GoodTree TS S0 T g ∧
      g.targets_reached = T ∧ g.depth ≤ s.length := by
  obtain ⟨q, hq1, hq2, -, hq4, -⟩ := exists_good_ref s.length s (le_refl _) hcov
  obtain ⟨hval, hend⟩ := (covering_iff TS S0 T q).1 hq1
  have hrootgood : GoodTree TS S0 T (.root S0 (T ∩ S0)) := GoodTree_root TS S0 T
  have hrootkey : (PathNode.root S0 (T ∩ S0) : PathNode σ γ).key ∈ keyUniverse TS S0 T :=
    (hrootgood.toGoodNode).key_mem
  have hinv : BfsInv TS S0 T [.root S0 (T ∩ S0)]
      {(PathNode.root S0 (T ∩ S0) : PathNode σ γ).key} := by
    refine ⟨?_, ?_, ?_, ?_, ?_⟩
    · intro n hn
      rcases List.mem_singleton.1 hn with rfl
      exact hrootgood
    · intro n hn
      rcases List.mem_singleton.1 hn with rfl
      exact Finset.mem_singleton_self _
    · exact Finset.singleton_subset_iff.2 hrootkey
    · exact List.pairwise_singleton _ _
    · intro n hn m hm
      rcases List.mem_singleton.1 hn with rfl
      rcases List.mem_singleton.1 hm with rfl
      exact Nat.le_succ _
  have hwit : BfsWitness TS S0 T q [.root S0 (T ∩ S0)]
      {(PathNode.root S0 (T ∩ S0) : PathNode σ γ).key} := by
    refine ⟨0, Nat.zero_le _, ⟨.root S0 (T ∩ S0), List.mem_singleton_self _, rfl, le_refl 0⟩, ?_⟩
    intro m hm hmL hmem
    rw [Finset.mem_singleton] at hmem
    exact hq4 0 m hm hmL (by rw [hmem]; rfl)
  have hfuel : ([(PathNode.root S0 (T ∩ S0) : PathNode σ γ)]).length +
      ((keyUniverse TS S0 T) \
        {(PathNode.root S0 (T ∩ S0) : PathNode σ γ).key}).card ≤ searchFuel TS S0 T := by
    have h1 : ((keyUniverse TS S0 T) \
        {(PathNode.root S0 (T ∩ S0) : PathNode σ γ).key}).card ≤
        (keyUniverse TS S0 T).card := Finset.card_le_card (Finset.sdiff_subset)
    have h2 : (keyUniverse TS S0 T).card ≤
        (keyUniverse TS S0 T).card * (TS.length + 1) :=
      Nat.le_mul_of_pos_right _ (Nat.succ_pos _)
    unfold searchFuel
    simp only [List.length_singleton]
    omega
  obtain ⟨g, hloop, hgood, hreach, hdepth⟩ :=
    bfsLoop_optimal hval hend (searchFuel TS S0 T) _ _ hinv hwit hfuel
  refine ⟨g, ?_, hgood, hreach, le_trans hdepth hq2⟩
  unfold bfs_search
  dsimp only
  rw [hloop]

theorem dijkstra_search_optimal_aux {TS : List (Transition σ γ)} {S0 T : Finset σ}
    {s : List (Transition σ γ)} (hnn : ∀ t ∈ TS, 0 ≤ t.path_cost)
    (hcov : Covering TS S0 T s) :
    ∃ g, dijkstra_search TS S0 T = some (reconstruct_path g T) ∧ GoodTree TS S0 T g ∧
      g.targets_reached = T ∧ g.cost ≤ seqCost s := by
  obtain ⟨q, hq1, -, hq3, hq4, -⟩ := exists_good_ref s.length s (le_refl _) hcov
  obtain ⟨hval, hend⟩ := (covering_iff TS S0 T q).1 hq1
  have hrootgood : GoodTree TS S0 T (.root S0 (T ∩ S0)) := GoodTree_root TS S0 T
  have hinv : DijkstraInv TS S0 T [(0, .root S0 (T ∩ S0))] ∅
      [((PathNode.root S0 (T ∩ S0) : PathNode σ γ).key, 0)] := by
    refine ⟨?_, ?_, ?_, ?_⟩
    · intro e he
      rcases List.mem_singleton.1 he with rfl
      exact hrootgood
    · intro e he
      rcases List.mem_singleton.1 he with rfl
      rfl
    · exact Finset.empty_subset _
    · intro K bb _ hlook
      rw [lookupBest_cons] at hlook
      by_cases hk : (PathNode.root S0 (T ∩ S0) : PathNode σ γ).key = K
      · rw [if_pos hk] at hlook
        obtain rfl : (0 : ℚ) = bb := Option.some.inj hlook
        exact ⟨(0, .root S0 (T ∩ S0)), List.mem_singleton_self _, hk, le_refl 0⟩
      · rw [if_neg hk] at hlook
        simp [lookupBest] at hlook
  have hwit : DijkstraWitness TS S0 T q [(0, .root S0 (T ∩ S0))] ∅ := by
    refine ⟨0, Nat.zero_le _,
      ⟨(0, .root S0 (T ∩ S0)), List.mem_singleton_self _, rfl, le_refl 0⟩, ?_⟩
    intro m _ _ hmem
    cases hmem
  have hfuel : ([((0 : ℚ), (PathNode.root S0 (T ∩ S0) : PathNode σ γ))]).length +
      ((keyUniverse TS S0 T) \ ∅).card * (TS.length + 1) ≤ searchFuel TS S0 T := by
    rw [Finset.sdiff_empty]
    unfold searchFuel
    simp only [List.length_singleton]
    omega
  obtain ⟨g, hloop, hgood, hreach, hcost⟩ :=
    dijkstraLoop_optimal hnn hval hend hq4 (searchFuel TS S0 T) _ _ _ hinv hwit hfuel
  refine ⟨g, ?_, hgood, hreach, le_trans hcost (hq3 hnn)⟩
  unfold dijkstra_search
  dsimp only
  rw [hloop]

/-- A reconstructed path from a hereditarily good goal node is complete:
the union of its snapshots covers the targets. -/
theorem reconstruct_complete {TS : List (Transition σ γ)} {S0 T : Finset σ}
    {g : PathNode σ γ} (hgood : GoodTree TS S0 T g) (hreach : g.targets_reached = T) :
    (reconstruct_path g T).is_complete = true := by
  unfold Path.is_complete reconstruct_path
  apply decide_eq_true
  dsimp only
  rw [GoodTree.nodeList_active hgood, foldl_union_configsAlong, Finset.empty_union]
  exact ((hgood.toGoodNode).covering hreach).2

/-- **C3** (pathfinder optimality): when a covering transition sequence
from the start configuration exists, BFS returns a complete covering path
with the fewest transitions among all covering sequences, and — for
non-negative transition costs — Dijkstra returns a complete covering path
whose total cost is the sequence cost and is minimum among all covering
sequences. -/
theorem pathfinder_optimality {σ γ : Type} [DecidableEq σ] [DecidableEq γ]
    (TS : List (Transition σ γ)) (S0 T : Finset σ)
    (hcov : ∃ s, Covering TS S0 T s) :
    (∃ p, find_path_to_all TS .BFS S0 T = some p ∧
        Covering TS S0 T p.transitions_sequence ∧ p.is_complete = true ∧
        ∀ s, Covering TS S0 T s → p.transitions_sequence.length ≤ s.length)
    ∧ ((∀ t ∈ TS, 0 ≤ t.path_cost) →
        ∃ p, find_path_to_all TS .DIJKSTRA S0 T = some p ∧
          Covering TS S0 T p.transitions_sequence ∧ p.is_complete = true ∧
          p.total_cost = seqCost p.transitions_sequence ∧
          ∀ s, Covering TS S0 T s → p.total_cost ≤ seqCost s) := by
  by_cases hTs : T ⊆ S0
  · -- Short-circuit: the identity path is returned and is optimal.
    have hfind : ∀ st : SearchStrategy,
        find_path_to_all TS st S0 T =
          some { states_sequence := [S0], transitions_sequence := [],
                 targets := T, total_cost := 0 } := by
      intro st
      unfold find_path_to_all
      by_cases hT : T = ∅
      · rw [if_pos hT]
      · rw [if_neg hT, if_pos hTs]
    have hcov0 : Covering TS S0 T ([] : List (Transition σ γ)) := ⟨rfl, hTs⟩
    have hcomp : (({ states_sequence := [S0], transitions_sequence := [],
                     targets := T, total_cost := 0 } : Path σ γ)).is_complete = true := by
      unfold Path.is_complete
      apply decide_eq_true
      dsimp only
      rw [List.foldl_cons, List.foldl_nil, Finset.empty_union]
      exact hTs
    constructor
    · exact ⟨_, hfind .BFS, hcov0, hcomp, fun s _ => Nat.zero_le _⟩
    · intro hnn
      refine ⟨_, hfind .DIJKSTRA, hcov0, hcomp, rfl, ?_⟩
      intro s hs
      exact seqCost_nonneg fun t ht => hnn t (validSeqB_mem TS s S0 hs.1 t ht)
  · -- Search branch.
    have hTne : T ≠ ∅ := fun h => hTs (by rw [h]; exact Finset.empty_subset S0)
    have hfindB : find_path_to_all TS .BFS S0 T = bfs_search TS S0 T := by
      unfold find_path_to_all
      rw [if_neg hTne, if_neg hTs]
    have hfindD : find_path_to_all TS .DIJKSTRA S0 T = dijkstra_search TS S0 T := by
      unfold find_path_to_all
      rw [if_neg hTne, if_neg hTs]
    obtain ⟨s0, hs0⟩ := hcov
    constructor
    · obtain ⟨g, heq, hgood, hreach, -⟩ := bfs_search_optimal_aux hs0
      refine ⟨reconstruct_path g T, by rw [hfindB]; exact heq,
        (hgood.toGoodNode).covering hreach, reconstruct_complete hgood hreach, ?_⟩
      intro s hs
      obtain ⟨g', heq', hgood', -, hdepth'⟩ := bfs_search_optimal_aux hs
      rw [heq] at heq'
      have h2 : reconstruct_path g T = reconstruct_path g' T := Option.some.inj heq'
      have hch : g.chain = g'.chain := congrArg Path.transitions_sequence h2
      show g.chain.length ≤ s.length
      rw [hch, ← ((hgood'.toGoodNode)).2.2.2.2]
      exact hdepth'
    · intro hnn
      obtain ⟨g, heq, hgood, hreach, -⟩ := dijkstra_search_optimal_aux hnn hs0
      refine ⟨reconstruct_path g T, by rw [hfindD]; exact heq,
        (hgood.toGoodNode).covering hreach, reconstruct_complete hgood hreach,
        (hgood.toGoodNode).2.2.2.1, ?_⟩
      intro s hs
      obtain ⟨g', heq', -, -, hcost'⟩ := dijkstra_search_optimal_aux hnn hs
      rw [heq] at heq'
      have h2 : reconstruct_path g T = reconstruct_path g' T := Option.some.inj heq'
      have hc : g.cost = g'.cost := congrArg Path.total_cost h2
      show g.cost ≤ seqCost s
      rw [hc]
      exact hcost'

theorem pathfinder_optimality_witness :
    (∃ p, find_path_to_all lineTransitions .BFS {0} {2} = some p ∧
        Covering lineTransitions {0} {2} p.transitions_sequence ∧
        p.is_complete = true ∧
        ∀ s, Covering lineTransitions {0} {2} s → p.transitions_sequence.length ≤ s.length)
    ∧ (∃ p, find_path_to_all lineTransitions .DIJKSTRA {0} {2} = some p ∧
        Covering lineTransitions {0} {2} p.transitions_sequence ∧
        p.is_complete = true ∧
        p.total_cost = seqCost p.transitions_sequence ∧
        ∀ s, Covering lineTransitions {0} {2} s → p.total_cost ≤ seqCost s) :=
  ⟨(pathfinder_optimality lineTransitions {0} {2}
      ⟨[tLine01, tLine12], by decide⟩).1,
   (pathfinder_optimality lineTransitions {0} {2}
      ⟨[tLine01, tLine12], by decide⟩).2 (by decide)⟩

end Multistate
